import Mathlib

/-!
Verification of the slim app deployment core (`slim/app/_deployment.py`,
`slim/app/_server_class.py`, `slim/app/_internal/json_data.py`).

The development shallowly embeds the data model and the operations of the
source files — input-group sets become `Finset String`, ordered dictionaries
become association lists, recursion with an unbounded call stack becomes
fuel-indexed recursion returning `Option` — and proves the documented
properties of the code against the embedding.
-/

namespace Slim

/-! ## Input-group sets and `AppDependencyGraph._union_of`

`AppDeploymentSpecification.all_input_groups = frozenset('*')` is the
one-element set containing the string `"*"`;
`AppDeploymentSpecification.no_input_groups = frozenset()` is the empty set.
-/

/-- `AppDeploymentSpecification.all_input_groups`: the sentinel set containing
exactly the wildcard string. -/
def allInputGroups : Finset String := {"*"}

/-- `AppDeploymentSpecification.no_input_groups`: the empty frozenset. -/
def noInputGroups : Finset String := (∅ : Finset String)

/-- `AppDependencyGraph._union_of(fg_1, fg_2)`: returns `all_input_groups`
when either operand contains the wildcard, and the plain union otherwise. -/
def unionOf (fg1 fg2 : Finset String) : Finset String :=
  if "*" ∈ fg1 ∨ "*" ∈ fg2 then allInputGroups else fg1 ∪ fg2

/-- `AppDeploymentSpecification.InputGroupsConverter.convert_from`: an empty
collection becomes `no_input_groups`, a collection containing the wildcard
becomes `all_input_groups`, and any other collection becomes itself (as a
frozenset). -/
def inputGroupsConvertFrom (value : Finset String) : Finset String :=
  if value.card = 0 then noInputGroups
  else if "*" ∈ value then allInputGroups
  else value

/-- An input-group set as the code produces them: a value in the range of
`InputGroupsConverter.convert_from` (equivalently: the `ALL` sentinel, or a
set that does not contain the wildcard). -/
def IsInputGroupSet (s : Finset String) : Prop :=
  ∃ v : Finset String, inputGroupsConvertFrom v = s

theorem isInputGroupSet_iff (s : Finset String) :
    IsInputGroupSet s ↔ s = allInputGroups ∨ "*" ∉ s := by
  constructor
  · rintro ⟨v, rfl⟩
    unfold inputGroupsConvertFrom
    split
    · right
      simp [noInputGroups]
    · split
      · left; rfl
      · right; assumption
  · intro h
    refine ⟨s, ?_⟩
    unfold inputGroupsConvertFrom
    rcases h with h | h
    · subst h
      simp [allInputGroups]
    · rcases Finset.eq_empty_or_nonempty s with rfl | hs
      · simp [noInputGroups]
      · rw [if_neg (by simpa [Finset.card_eq_zero] using hs.ne_empty), if_neg h]

theorem unionOf_all_left (X : Finset String) : unionOf allInputGroups X = allInputGroups := by
  simp [unionOf, allInputGroups]

theorem unionOf_all_right (X : Finset String) : unionOf X allInputGroups = allInputGroups := by
  simp [unionOf, allInputGroups]

theorem unionOf_comm (X Y : Finset String) : unionOf X Y = unionOf Y X := by
  unfold unionOf
  rw [Finset.union_comm]
  by_cases h1 : "*" ∈ X <;> by_cases h2 : "*" ∈ Y <;> simp [h1, h2]

theorem unionOf_idem (X : Finset String) (h : IsInputGroupSet X) : unionOf X X = X := by
  rw [isInputGroupSet_iff] at h
  rcases h with rfl | h
  · exact unionOf_all_left _
  · simp [unionOf, h]

/-! ## Deployment specifications and the dependency-graph propagation -/

/-- An application identity (`AppSource` stands in the code for a resolved
package object; the graph algorithms only compare sources by identity, so the
embedding names them). -/
abbrev AppId := String

/-- `AppDeploymentSpecification`: `name`, `workload`, and an optional
`inputGroups` frozenset (absent is Python `None`). -/
structure DeploymentSpecification where
  name : String
  workload : Finset String
  inputGroups : Option (Finset String)
deriving DecidableEq

/-- One input group of a manifest: its optional `requires` map from dependency
alias to the set of the dependency's input groups the group requires
(`group.requires[alias]`). Absence of the attribute raises `AttributeError`
in the source, which skips the group. -/
structure InputGroup where
  igRequires : Option (List (String × Finset String))
deriving DecidableEq

/-- A manifest dependency declaration; the propagation code only reads its
`package` field (`dependencies[alias].package`). -/
structure DepDecl where
  package : Option String
deriving DecidableEq

/-- The per-node data the propagation walk reads from an `AppSource`:
`manifest.inputGroups` (group name to group), `manifest.dependencies`
(alias to declaration), and `app_source.dependencies` — the resolved pairs
`(dependency declaration, dependency source)` that `_add_source` stored,
in declaration order. -/
structure AppNode where
  inputGroups : Option (List (String × InputGroup))
  dependencies : Option (List (String × DepDecl))
  resolvedDeps : List (DepDecl × AppId)
deriving DecidableEq

/-- The part of a constructed `AppDependencyGraph` that
`get_deployment_specifications` consumes: the root, the ordered key list of
`self._graph`, each node's manifest/resolution data, and
`self._repository_sources` (package filename to source). -/
structure DepGraphModel where
  root : AppId
  nodes : List AppId
  app : AppId → AppNode
  repoSources : String → Option AppId

/-- Dictionary lookup on an association list (Python `dict.get`). -/
def alookup {α : Type} (k : AppId) : List (AppId × α) → Option α
  | [] => none
  | (k', v) :: rest => if k = k' then some v else alookup k rest

/-- Assignment into an ordered dictionary: an existing key keeps its position
and gets the new value; a new key is appended. -/
def odSet {α : Type} (m : List (AppId × α)) (k : AppId) (v : α) : List (AppId × α) :=
  if (alookup k m).isSome then
    m.map (fun p => if p.1 = k then (k, v) else p)
  else
    m ++ [(k, v)]

/-- Inner loop of the requirements computation in
`AppDependencyGraph._get_deployment_specifications`: for each
`(alias, requirement)` pair of an active group's `requires` map, resolve the
alias through `manifest.dependencies` and `self._repository_sources`, check
the graph-corruption assertion, and merge the requirement into the
accumulator with `_union_of`. A `none` result models an uncaught exception
(`KeyError`, `TypeError`, or `AssertionError`). -/
def reqAliasLoop (m : DepGraphModel) (aId : AppId) :
    List (String × Finset String) → List (AppId × Finset String) →
    Option (List (AppId × Finset String))
  | [], reqs => some reqs
  | (al, requirement) :: rest, reqs =>
    match (m.app aId).dependencies with
    | none => none
    | some depDecls =>
      match alookup al depDecls with
      | none => none
      | some decl =>
        match decl.package with
        | none => none
        | some pkg =>
          match m.repoSources pkg with
          | none => none
          | some dId =>
            if dId ∈ (m.app aId).resolvedDeps.map Prod.snd then
              reqAliasLoop m aId rest
                (odSet reqs dId (unionOf ((alookup dId reqs).getD noInputGroups) requirement))
            else none

/-- Outer loop of the requirements computation: for each name in the incoming
specification's `inputGroups`, look the group up in the app's declared input
groups (`input_groups.get(name)`), skip absent groups and groups without a
`requires` attribute, and fold the group's requirements in. -/
def reqGroupLoop (m : DepGraphModel) (aId : AppId) (groups : List (String × InputGroup)) :
    List String → List (AppId × Finset String) → Option (List (AppId × Finset String))
  | [], reqs => some reqs
  | name :: rest, reqs =>
    match alookup name groups with
    | none => reqGroupLoop m aId groups rest reqs
    | some group =>
      match group.igRequires with
      | none => reqGroupLoop m aId groups rest reqs
      | some aliases =>
        match reqAliasLoop m aId aliases reqs with
        | none => none
        | some reqs' => reqGroupLoop m aId groups rest reqs'

/-- The `requirements` dictionary built at the head of
`_get_deployment_specifications` for one node, from the incoming
specification's input groups. Iteration over the frozenset is modelled by
iterating its sorted element list; `_union_of` is commutative and
associative, so the order cannot be observed in the result. -/
def computeRequirements (m : DepGraphModel) (aId : AppId) (igs : Finset String) :
    Option (List (AppId × Finset String)) :=
  match (m.app aId).inputGroups with
  | none => some []
  | some groups => reqGroupLoop m aId groups (igs.sort (· ≤ ·)) []

/-- The dependency loop at the tail of `_get_deployment_specifications`,
parametrised over the recursive call `step`: each dependency receives the
union of its requirement entry (defaulting to `no_input_groups`) with
whatever an earlier path already assigned to it, and the walk recurses into
the dependency. -/
def goDeps
    (step : AppId → Finset String → List (AppId × Finset String) →
      Option (List (AppId × Finset String))) :
    List (DepDecl × AppId) → List (AppId × Finset String) →
    List (AppId × Finset String) → Option (List (AppId × Finset String))
  | [], _, result => some result
  | (_, dId) :: rest, reqs, result =>
    let ig := (alookup dId reqs).getD noInputGroups
    let igChild :=
      match alookup dId result with
      | some prev => unionOf prev ig
      | none => ig
    match step dId igChild result with
    | none => none
    | some result' => goDeps step rest reqs result'

/-- `AppDependencyGraph._get_deployment_specifications`, specialised to the
input-group component (the `name` and `workload` fields of every constructed
specification are those of the original specification): record the incoming
set for the node, compute the node's requirements dictionary, then walk the
resolved dependencies in declaration order. `fuel` bounds the recursion
depth; `none` models a non-terminating or crashing run. -/
def getDeploySpecsRec (m : DepGraphModel) :
    Nat → AppId → Finset String → List (AppId × Finset String) →
    Option (List (AppId × Finset String))
  | 0 => fun _ _ _ => none
  | fuel + 1 => fun aId igs result =>
    let result' := odSet result aId igs
    match computeRequirements m aId igs with
    | none => none
    | some reqs => goDeps (getDeploySpecsRec m fuel) (m.app aId).resolvedDeps reqs result'

/-- `AppDependencyGraph.get_deployment_specifications`: when the requested
specification's `inputGroups` is `None` or the `ALL` sentinel, every graph
node is mapped to the identical specification; otherwise the propagation
recursion runs from the root and the resulting per-node input-group sets are
wrapped back into specifications sharing the original name and workload. -/
def getDeploymentSpecifications (m : DepGraphModel) (spec : DeploymentSpecification)
    (fuel : Nat) : Option (List (AppId × DeploymentSpecification)) :=
  match spec.inputGroups with
  | none => some (m.nodes.map fun s => (s, spec))
  | some igs =>
    if igs = allInputGroups then
      some (m.nodes.map fun s => (s, spec))
    else
      (getDeploySpecsRec m fuel m.root igs []).map
        (List.map fun p => (p.1, ⟨spec.name, spec.workload, some p.2⟩))

/-! ## Asset-exclusion rule selection (`AppDeploymentPackage.__init__`) -/

/-- One path-pattern component of an exclusion rule: a glob string, or the
member-function predicate `_exclude_conf_spec` used by the `README` rule. -/
inductive PatternPart where
  | glob : String → PatternPart
  | confSpecPred : PatternPart
deriving DecidableEq

/-- `AppDeploymentPackage._exclusion_rule`: the fixed table of
`(pattern, excluded workload roles)` pairs. -/
def exclusionRule : List (List PatternPart × Finset String) :=
  [ ([.glob "app.manifest"], {"forwarder", "indexer", "searchHead"}),
    ([.glob "appserver"], {"forwarder", "indexer"}),
    ([.glob "lookups"], {"forwarder", "indexer"}),
    ([.glob "static"], {"forwarder", "indexer"}),
    ([.glob "default", .glob "data"], {"forwarder", "indexer"}),
    ([.glob "default", .glob "*.conf"], {"forwarder", "indexer", "searchHead"}),
    ([.glob "local", .glob "*.conf"], {"forwarder", "indexer", "searchHead"}),
    ([.glob "metadata", .glob "local.meta"], {"forwarder", "indexer", "searchHead"}),
    ([.glob "README", .confSpecPred], {"forwarder", "indexer", "searchHead"}) ]

/-- The pattern-selection loop in `AppDeploymentPackage.__init__`: a pattern
is kept exactly when `len(workload.difference(excluded_roles)) == 0`. -/
def selectedExclusionPatterns (workload : Finset String) : List (List PatternPart) :=
  (exclusionRule.filter fun r => (workload \ r.2).card = 0).map Prod.fst

/-! ### The active-input-group relation used to state claim C3 -/

/-- In the propagation walk, a dependency alias `al` of the node `aId`
resolves to the source `dId`: the manifest declares the alias with a package
that `self._repository_sources` maps to `dId`. -/
def resolvesTo (m : DepGraphModel) (aId : AppId) (al : String) (dId : AppId) : Prop :=
  ∃ depDecls decl pkg,
    (m.app aId).dependencies = some depDecls ∧
    alookup al depDecls = some decl ∧
    decl.package = some pkg ∧
    m.repoSources pkg = some dId

/-- The input groups active at a node along some path from the root: the
requested groups are active at the root, and whenever a group active at a
node requires `(alias, requirement)` and the alias resolves to a dependency,
every group in the requirement becomes active at that dependency. -/
inductive Active (m : DepGraphModel) (rootIgs : Finset String) : AppId → String → Prop where
  | root : ∀ g ∈ rootIgs, Active m rootIgs m.root g
  | step : ∀ {a : AppId} {gname : String} {d : AppId} {g' : String}
      (groups : List (AppId × InputGroup)) (group : InputGroup)
      (aliases : List (AppId × Finset String)) (al : String) (requirement : Finset String),
      Active m rootIgs a gname →
      (m.app a).inputGroups = some groups →
      alookup gname groups = some group →
      group.igRequires = some aliases →
      (al, requirement) ∈ aliases →
      resolvesTo m a al d →
      g' ∈ requirement →
      Active m rootIgs d g'

/-- A dependency source is declared as required by an input group active
along some path from the root: some node with an active group whose
`requires` clause mentions an alias resolving to the dependency. -/
def RequiredActive (m : DepGraphModel) (rootIgs : Finset String) (d : AppId) : Prop :=
  ∃ a gname groups group aliases al requirement,
    Active m rootIgs a gname ∧
    (m.app a).inputGroups = some groups ∧
    alookup gname groups = some group ∧
    group.igRequires = some aliases ∧
    (al, requirement) ∈ aliases ∧
    resolvesTo m a al d

/-- Soundness property of a requirements dictionary: every group it assigns
to a dependency is active at that dependency. -/
def ReqsSound (m : DepGraphModel) (rootIgs : Finset String)
    (reqs : List (AppId × Finset String)) : Prop :=
  ∀ d R, alookup d reqs = some R → ∀ g ∈ R, Active m rootIgs d g

/-! ### Cycle detection (`AppDependencyGraph._is_cyclic`) -/

/-- The edge relation of an adjacency mapping. -/
def Edge (adj : AppId → List AppId) (u v : AppId) : Prop := v ∈ adj u

/-- A node from which some cycle is reachable. -/
def CanReachCycle (adj : AppId → List AppId) (a : AppId) : Prop :=
  ∃ w, Relation.ReflTransGen (Edge adj) a w ∧ Relation.TransGen (Edge adj) w w

/-- The neighbour loop of `_is_cyclic`'s inner `visit`: returns `True` as
soon as a neighbour lies on the current recursion path or a recursive visit
finds a cycle. `step` is the recursive visit at the current path (threading
the persistent `visited` set); `none` models exhausted recursion fuel. -/
def visitList
    (step : Finset AppId → AppId → Option (Bool × Finset AppId))
    (path : Finset AppId) :
    List AppId → Finset AppId → Option (Bool × Finset AppId)
  | [], visited => some (false, visited)
  | n :: ns, visited =>
    if n ∈ path then some (true, visited)
    else
      match step visited n with
      | none => none
      | some (true, visited') => some (true, visited')
      | some (false, visited') => visitList step path ns visited'

/-- `_is_cyclic`'s inner `visit`: an already-visited node is skipped;
otherwise the node joins the visited set and the recursion path, its
neighbours are examined, and (in the `False` case) the node leaves the path
again — modelled by the caller keeping its own `path`. -/
def visit (adj : AppId → List AppId) :
    Nat → Finset AppId → Finset AppId → AppId → Option (Bool × Finset AppId)
  | 0 => fun _ _ _ => none
  | fuel + 1 => fun path visited a =>
    if a ∈ visited then some (false, visited)
    else
      visitList (visit adj fuel (insert a path)) (insert a path) (adj a) (insert a visited)

/-- The `any(visit(app_source) for app_source in graph)` loop of
`_is_cyclic`: visits start from every node in order, sharing the `visited`
set, and stop at the first `True`. -/
def isCyclicAux (adj : AppId → List AppId) (fuel : Nat) :
    List AppId → Finset AppId → Option Bool
  | [], _ => some false
  | a :: rest, visited =>
    match visit adj fuel ∅ visited a with
    | none => none
    | some (true, _) => some true
    | some (false, visited') => isCyclicAux adj fuel rest visited'

/-- `AppDependencyGraph._is_cyclic` over an adjacency mapping and the ordered
node list of the graph; the fuel `nodes.length + 1` is proved sufficient for
adjacency mappings closed over the node list. -/
def isCyclic (adj : AppId → List AppId) (nodes : List AppId) : Option Bool :=
  isCyclicAux adj (nodes.length + 1) nodes ∅

/-! ### Graph construction (`_add_source` / `_get_dependencies` /
`_check_dependencies`) -/

/-- A manifest dependency declaration as `_get_dependencies` reads it:
the optional pinned `package`, the `optional` flag, and the declared version
range through the collaborator contract `version_range.match(version)`.
Versions are modelled as naturals. -/
structure SourceDep where
  package : Option String
  optional : Bool
  range : Nat → Bool

/-- The per-source data graph construction consumes: the packaged version
(`manifest.info.id.version`), the truthiness of `source.manifest`, and the
declared dependencies in the order `get_dependencies_for_target_os` yields
them. -/
structure SourceApp where
  version : Nat
  hasManifest : Bool
  manifestDeps : Option (List (String × SourceDep))

/-- The environment of a construction run: source data per app, the two
resolution dictionaries (`dependency_sources` from the package's
`.dependencies` directory, `repository_sources` as backup), and the
installed-packages index. The write-back
`repository_sources[package] = dependency_source` in `_get_dependencies`
re-stores the value resolution just produced and `dependency_sources` is
consulted first and never mutated, so resolution is the pure function
`resolvePackage`. -/
structure GraphEnv where
  src : AppId → SourceApp
  dependencySources : String → Option AppId
  repoSources : String → Option AppId
  installedPackages : List (String × String)

/-- Python truthiness of an optional string (`None` and the empty string are
falsy). -/
def truthyOptStr : Option String → Bool
  | none => false
  | some s => if s = "" then false else true

/-- `dependency_sources[package]` with `repository_sources[package]` as the
`KeyError` fallback. -/
def resolvePackage (env : GraphEnv) (pkg : String) : Option AppId :=
  match env.dependencySources pkg with
  | some s => some s
  | none => env.repoSources pkg

/-- The package selection at the head of the `_get_dependencies` loop body:
a truthy pinned package wins; otherwise a truthy installed-packages entry;
otherwise the dependency is skipped (optional and dynamic dependencies warn
without logging an error). -/
def choosePackage (env : GraphEnv) (name : String) (dep : SourceDep) : Option String :=
  if truthyOptStr dep.package then dep.package
  else if !env.installedPackages.isEmpty &&
      truthyOptStr (alookup name env.installedPackages) then
    alookup name env.installedPackages
  else none

/-- The `_get_dependencies` loop over the declared dependencies: returns the
resolved `(declaration, source)` pairs in declaration order together with
the number of `SlimLogger.error` calls (unresolvable static dependency, and
packaged version outside the declared range — the latter still appends the
dependency). A resolved source without a manifest is skipped silently. -/
def getDependenciesLoop (env : GraphEnv) :
    List (String × SourceDep) → List (SourceDep × AppId) × Nat
  | [] => ([], 0)
  | (name, dep) :: rest =>
    let tail := getDependenciesLoop env rest
    match choosePackage env name dep with
    | none => tail
    | some pkg =>
      match resolvePackage env pkg with
      | none => (tail.1, tail.2 + 1)
      | some dId =>
        if (env.src dId).hasManifest then
          if dep.range (env.src dId).version then
            ((dep, dId) :: tail.1, tail.2)
          else
            ((dep, dId) :: tail.1, tail.2 + 1)
        else tail

/-- `AppDependencyGraph._get_dependencies`: resolved dependency pairs and
error count for one source (empty when `manifest.dependencies is None`). -/
def getDependencies (env : GraphEnv) (a : AppId) : List (SourceDep × AppId) × Nat :=
  match (env.src a).manifestDeps with
  | none => ([], 0)
  | some decls => getDependenciesLoop env decls

/-- The dependents bookkeeping of `_add_source`: each resolved pair
`(declaration, source)` appends `(declaration, dependent)` to the
dependency source's entry. -/
def addDependents (a : AppId) (deps : List (SourceDep × AppId))
    (dts : List (AppId × List (SourceDep × AppId))) :
    List (AppId × List (SourceDep × AppId)) :=
  deps.foldl (fun dts p => odSet dts p.2 ((alookup p.2 dts).getD [] ++ [(p.1, a)])) dts

/-- `AppDependencyGraph._add_source`: worklist construction from the root.
The deque (popped at the right, extended at the left) is represented
reversed, so popping is taking the head and `extendleft` is appending the
dependency sources. Returns the graph (key order = insertion order, each key
mapped to its resolved pairs), the dependents map, and the accumulated error
count; `none` models exhausted fuel. -/
def addSource (env : GraphEnv) :
    Nat → List AppId → List (AppId × List (SourceDep × AppId)) →
    List (AppId × List (SourceDep × AppId)) → Nat →
    Option (List (AppId × List (SourceDep × AppId)) ×
      List (AppId × List (SourceDep × AppId)) × Nat)
  | 0 => fun _ _ _ _ => none
  | fuel + 1 => fun queue graph dts errs =>
    match queue with
    | [] => some (graph, dts, errs)
    | a :: rest =>
      if (alookup a graph).isSome then addSource env fuel rest graph dts errs
      else
        addSource env fuel (rest ++ (getDependencies env a).1.map Prod.snd)
          (graph ++ [(a, (getDependencies env a).1)])
          (addDependents a (getDependencies env a).1 dts)
          (errs + (getDependencies env a).2)

/-- The inner loop of `_check_dependencies` for one dependents entry: one
error per dependent whose declared range does not match the dependency
source's packaged version. -/
def checkEntry (env : GraphEnv) (k : AppId) : List (SourceDep × AppId) → Nat
  | [] => 0
  | q :: rest => (if q.1.range (env.src k).version then 0 else 1) + checkEntry env k rest

/-- `AppDependencyGraph._check_dependencies`: the total number of
version-mismatch errors over the dependents map. The method itself returns
`None`, so the `elif` in `__init__` never logs its own error. -/
def checkDependencies (env : GraphEnv) :
    List (AppId × List (SourceDep × AppId)) → Nat
  | [] => 0
  | (k, lst) :: rest => checkEntry env k lst + checkDependencies env rest

/-- `AppDependencyGraph.__init__` error accounting: run `_add_source`, then
`_is_cyclic` (one error when cyclic), else `_check_dependencies` (one error
per version mismatch). -/
def constructGraph (env : GraphEnv) (root : AppId) (fuel : Nat) :
    Option (List (AppId × List (SourceDep × AppId)) ×
      List (AppId × List (SourceDep × AppId)) × Nat) :=
  match addSource env fuel [root] [] [] 0 with
  | none => none
  | some (graph, dts, e1) =>
    match isCyclic (fun a => ((alookup a graph).getD []).map Prod.snd)
        (graph.map Prod.fst) with
    | none => none
    | some cyc =>
      some (graph, dts, e1 + if cyc then 1 else checkDependencies env dts)

/-- The resolved-dependency edge relation of an environment: `v` is one of
the dependency sources `_get_dependencies` yields for `u`. -/
def DepEdge (env : GraphEnv) (u v : AppId) : Prop :=
  v ∈ (getDependencies env u).1.map Prod.snd

/-- A declared static dependency of `u` resolving to the concrete source
`v`: the manifest declares a truthy package that resolves to `v`. -/
def StaticEdge (env : GraphEnv) (u v : AppId) : Prop :=
  ∃ decls name dep pkg,
    (env.src u).manifestDeps = some decls ∧
    (name, dep) ∈ decls ∧
    dep.package = some pkg ∧ pkg ≠ "" ∧
    resolvePackage env pkg = some v

/-- Sufficient fuel for `_add_source` over a finite app universe. -/
def graphFuel (env : GraphEnv) (allApps : List AppId) : Nat :=
  2 + allApps.toFinset.sum fun a => 1 + ((getDependencies env a).1).length

/-- Good dependents map: every recorded dependent's declared range matches
its dependency source's packaged version. -/
def DtsGood (env : GraphEnv) (dts : List (AppId × List (SourceDep × AppId))) : Prop :=
  ∀ p ∈ dts, ∀ q ∈ p.2, q.1.range (env.src p.1).version = true

/-! ### Path primitives and empty-app detection
(`AppDeploymentPackage._detect_is_empty`) -/

/-- Python `str.startswith`: plain string-prefix test. -/
def startswith (s pre : String) : Bool := pre.toList.isPrefixOf s.toList

/-- Python `str.endswith`: plain string-suffix test. -/
def endswith (s suf : String) : Bool := suf.toList.isSuffixOf s.toList

/-- `posixpath.join` for two components. -/
def pjoin (a b : String) : String :=
  if startswith b "/" then b
  else if a = "" ∨ endswith a "/" then a ++ b
  else a ++ "/" ++ b

/-- Python `str.split('/')` (empty components kept). -/
def splitSlashAux : List Char → List Char → List String
  | [], cur => [String.mk cur.reverse]
  | c :: rest, cur =>
    if c = '/' then String.mk cur.reverse :: splitSlashAux rest []
    else splitSlashAux rest (c :: cur)

/-- Python `'/'.join`. -/
def joinSlash : List String → String
  | [] => ""
  | [s] => s
  | s :: rest => s ++ "/" ++ joinSlash rest

/-- The component filter of `posixpath.normpath`: drop empty and `.`
components; `..` pops the previous component except at an absolute root or
after an unresolvable `..`. The accumulator is kept reversed. -/
def normpathComps (initialSlashes : Nat) : List String → List String → List String
  | [], acc => acc.reverse
  | comp :: rest, acc =>
    if comp = "" ∨ comp = "." then normpathComps initialSlashes rest acc
    else if comp ≠ ".." ∨ (initialSlashes = 0 ∧ acc = []) ∨ acc.headD "" = ".." then
      normpathComps initialSlashes rest (comp :: acc)
    else if acc.isEmpty then normpathComps initialSlashes rest acc
    else normpathComps initialSlashes rest acc.tail

/-- `posixpath.normpath`. -/
def normpath (p : String) : String :=
  if p = "" then "."
  else
    let initialSlashes : Nat :=
      if startswith p "/" then
        (if startswith p "//" ∧ ¬ (startswith p "///" = true) then 2 else 1)
      else 0
    let comps := splitSlashAux p.toList []
    let newComps := normpathComps initialSlashes comps []
    let result := String.join (List.replicate initialSlashes "/") ++ joinSlash newComps
    if result = "" then "." else result

/-- Trailing-character strip used by `posixpath.dirname`. -/
def dropTrailing (c : Char) (cs : List Char) : List Char :=
  (cs.reverse.dropWhile (· = c)).reverse

/-- Index of the last slash of a character list. -/
def lastSlashIdx (cs : List Char) : Option Nat :=
  match cs.reverse.findIdx? (· = '/') with
  | none => none
  | some j => some (cs.length - 1 - j)

/-- `posixpath.dirname`: everything up to the last slash, with trailing
slashes stripped unless the head is all slashes. -/
def pdirname (p : String) : String :=
  let cs := p.toList
  match lastSlashIdx cs with
  | none => ""
  | some i =>
    let head := cs.take (i + 1)
    if head.all (· = '/') then String.mk head
    else String.mk (dropTrailing '/' head)

/-- The `while len(filename) > 0` loop of `_detect_is_empty` for one
manifest-declared documentation file: add the normalized joined path and
step to the dirname. The loop diverges on slash-only fixpoints of
`dirname`, modelled by `none` on fuel exhaustion; the length of the
filename strictly decreases on every terminating run, so the caller's fuel
`length + 1` is exact. -/
def licenseChain (appRoot : String) : Nat → String → Finset String → Option (Finset String)
  | 0, filename, acc => if filename.length = 0 then some acc else none
  | fuel + 1, filename, acc =>
    if filename.length = 0 then some acc
    else licenseChain appRoot fuel (pdirname filename)
      (insert (normpath (pjoin appRoot filename)) acc)

/-- One documentation item of `app_info` (`license`, `privacyPolicy`,
`releaseNotes`): outer `none` is an absent item, inner `none` is an item
without `text`; both are skipped by the loop. -/
def itemChain (appRoot : String) (item : Option (Option String)) (acc : Finset String) :
    Option (Finset String) :=
  match item with
  | none => some acc
  | some none => some acc
  | some (some text) =>
    let filename := normpath text
    licenseChain appRoot (filename.length + 1) filename acc

/-- The three documentation items `_detect_is_empty` reads from
`app_source.manifest.info`. -/
structure AppInfoDocs where
  license : Option (Option String)
  privacyPolicy : Option (Option String)
  releaseNotes : Option (Option String)

/-- `AppDeploymentPackage._detect_is_empty`: the retained configuration must
be empty or only the `app` file, then the assets must all fall within the
accumulated `empty_set` (the metadata pair, assets whose path begins with
the string `<app_root>/bin`, and the documentation-file chains). -/
def detectIsEmpty (info : AppInfoDocs) (appRoot : String)
    (asset_filenames : Finset String) (configurations : Finset String) : Option Bool :=
  if configurations.card = 0 ∨ (configurations.card = 1 ∧ "app" ∈ configurations) then
    if asset_filenames.card = 0 then some true
    else
      (itemChain appRoot info.license
          (({pjoin appRoot "metadata", pjoin (pjoin appRoot "metadata") "default.meta"} :
              Finset String) ∪
            asset_filenames.filter (fun f => startswith f (pjoin appRoot "bin")))).bind
        fun s1 =>
          (itemChain appRoot info.privacyPolicy s1).bind fun s2 =>
            (itemChain appRoot info.releaseNotes s2).map fun s3 =>
              if asset_filenames ⊆ s3 then true else false
  else some false

/-- The asset set of claim C7, written from the claim's words: `metadata/`,
`metadata/default.meta`, the `bin` entry and files under `bin/`, and the
manifest-declared documentation chains. Stated for comparison with
`detectIsEmpty`, which uses a plain string-prefix test for `bin` instead. -/
def ClaimC7Allowed (info : AppInfoDocs) (appRoot : String) (f : String) : Prop :=
  f = pjoin appRoot "metadata" ∨
  f = pjoin (pjoin appRoot "metadata") "default.meta" ∨
  f = pjoin appRoot "bin" ∨
  startswith f (pjoin appRoot "bin" ++ "/") = true ∨
  (∃ s, itemChain appRoot info.license ∅ = some s ∧ f ∈ s) ∨
  (∃ s, itemChain appRoot info.privacyPolicy ∅ = some s ∧ f ∈ s) ∨
  (∃ s, itemChain appRoot info.releaseNotes ∅ = some s ∧ f ∈ s)

/-! ### Server-class app removal (`AppServerClass.remove_app`) -/

/-- An installation in a server class's app graph: the claim only reads its
accumulated dependents list. -/
structure Installation where
  dependents : List String
deriving DecidableEq

/-- Modelled from the spec: `AppInstallationGraph.remove_installation`
(defined in `slim/app/_installation.py`, which is not part of the sources)
removes the app's installation from the server class's app graph. -/
def removeInstallation (apps : List (AppId × Installation)) (appId : AppId) :
    List (AppId × Installation) :=
  apps.filter fun p => p.1 != appId

/-- `AppServerClass.remove_app`: a missing app is a no-op; an installation
with remaining dependents logs one hard error enumerating the dependents and
leaves the graph untouched; otherwise the installation is removed. The first
component collects the dependents list of each logged error. -/
def removeApp (apps : List (AppId × Installation)) (appId : AppId) :
    List (List String) × List (AppId × Installation) :=
  match alookup appId apps with
  | none => ([], apps)
  | some inst =>
    if inst.dependents.length > 0 then
      ([inst.dependents], apps)
    else
      ([], removeInstallation apps appId)

/-! ### Dependency-graph description (`AppDependencyGraph._describe`) -/

mutual

/-- The dependency tree `_describe` walks: a node's `id`,
`string(version)`, the `str(dependency.version)` accepting-range of the
edge leading to it (unused at the root), and its resolved dependencies in
declaration order. A source shared by several dependents appears once per
edge, exactly as the recursive walk visits it. -/
inductive DTree where
  | node : String → String → String → DTreeChildren → DTree

/-- The dependency list of one node of the description tree. -/
inductive DTreeChildren where
  | nil : DTreeChildren
  | cons : DTree → DTreeChildren → DTreeChildren

end

/-- Concatenation of a list of strings (Python `''.join`). -/
def joinList : List String → String
  | [] => ""
  | s :: rest => s ++ joinList rest

/-- Python `s * n` for strings. -/
def strRepeat (s : String) (n : Nat) : String := joinList (List.replicate n s)

mutual

/-- `AppDependencyGraph._describe`: the root-level call (level 1) first
prints `|-- id@version`; every dependency contributes
`'|' + '   ' * level + '|-- id@version (accepting range)'` and recurses one
level deeper. -/
def describeApp : DTree → Nat → String
  | DTree.node id ver _ deps, level =>
    (if level = 1 then "|-- " ++ id ++ "@" ++ ver ++ "\n" else "") ++
    describeDeps deps level

/-- The `for app_dependency, app_dependency_source in app_source.dependencies`
loop of `_describe`. -/
def describeDeps : DTreeChildren → Nat → String
  | DTreeChildren.nil, _ => ""
  | DTreeChildren.cons (DTree.node cid cver cacc cdeps) rest, level =>
    "|" ++ strRepeat "   " level ++ "|-- " ++ cid ++ "@" ++ cver ++
      " (accepting " ++ cacc ++ ")\n" ++
    describeApp (DTree.node cid cver cacc cdeps) (level + 1) ++
    describeDeps rest level

end

mutual

/-- The description format of claim C9, written from the claim's words: a
child line at depth `n` is prefixed by `n` accumulating `'|   '` units
before its `'|-- '` marker. Stated for comparison with `describeApp`. -/
def claimDescribeApp : DTree → Nat → String
  | DTree.node id ver _ deps, level =>
    (if level = 1 then "|-- " ++ id ++ "@" ++ ver ++ "\n" else "") ++
    claimDescribeDeps deps level

/-- The dependency loop of the claim's format. -/
def claimDescribeDeps : DTreeChildren → Nat → String
  | DTreeChildren.nil, _ => ""
  | DTreeChildren.cons (DTree.node cid cver cacc cdeps) rest, level =>
    strRepeat "|   " level ++ "|-- " ++ cid ++ "@" ++ cver ++
      " (accepting " ++ cacc ++ ")\n" ++
    claimDescribeApp (DTree.node cid cver cacc cdeps) (level + 1) ++
    claimDescribeDeps rest level

end

/-- The root line of a description. -/
def rootLine : DTree → String
  | DTree.node id ver _ _ => "|-- " ++ id ++ "@" ++ ver ++ "\n"

/-- One rendered dependency line: a single `'|'`, three spaces per level,
then the `'|-- '` marker and the entry. -/
def renderLine (level : Nat) (id ver acc : String) : String :=
  "|" ++ strRepeat "   " level ++ "|-- " ++ id ++ "@" ++ ver ++
    " (accepting " ++ acc ++ ")\n"

mutual

/-- The depth-first flattening of a description tree: one
`(level, id, version, accepting)` entry per edge in declaration order. -/
def flattenApp : DTree → Nat → List (Nat × String × String × String)
  | DTree.node _ _ _ deps, level => flattenDeps deps level

/-- Flattening of a dependency list. -/
def flattenDeps : DTreeChildren → Nat → List (Nat × String × String × String)
  | DTreeChildren.nil, _ => []
  | DTreeChildren.cons (DTree.node cid cver cacc cdeps) rest, level =>
    (level, cid, cver, cacc) ::
      (flattenApp (DTree.node cid cver cacc cdeps) (level + 1) ++ flattenDeps rest level)

end

/-! ### JSON data model (`slim/app/_internal/json_data.py`)

JSON values as they occur in manifests.  The `null` constructor stands for
Python's `None`. -/

/-- A JSON value: string, number, boolean, array, or `None`. -/
inductive JValue where
  | str : String → JValue
  | num : Int → JValue
  | bool : Bool → JValue
  | arr : List JValue → JValue
  | null : JValue

/-- The scalar JSON data types relevant to array elements:
`JsonString`, `JsonNumber`, `JsonBoolean`. -/
inductive JDataType where
  | string : JDataType
  | number : JDataType
  | boolean : JDataType

/-- `is_instance` of the scalar data types: `JsonString.is_instance` accepts
strings, `JsonNumber.is_instance` accepts reals that are not `bool`,
`JsonBoolean.is_instance` accepts exactly `bool`. -/
def dtIsInstance : JDataType → JValue → Bool
  | JDataType.string, JValue.str _ => true
  | JDataType.number, JValue.num _ => true
  | JDataType.boolean, JValue.bool _ => true
  | _, _ => false

/-- Whether a Python value is `Iterable`: strings and lists are,
numbers, booleans and `None` are not. -/
def pyIterable : JValue → Bool
  | JValue.str _ => true
  | JValue.arr _ => true
  | _ => false

/-- The element sequence produced by `enumerate(value)`: the elements of a
list, the one-character strings of a string, and a `TypeError` (`none`) on
anything else. -/
def pyElems : JValue → Option (List JValue)
  | JValue.arr xs => some xs
  | JValue.str s => some (s.data.map fun c => JValue.str (String.mk [c]))
  | _ => none

/-- The element definition of a `JsonArray`: a `JsonValue` built from a
scalar data type, a `required` flag and a `default` (element converters are
`None` throughout slim's array schemas). -/
structure JsonValueDef where
  data_type : JDataType
  required : Bool
  default : JValue

/-- `JsonValue.validate` on an element: `None` is accepted unless the value
is required; otherwise the scalar data type's `validate`, which is its
`is_instance` test. -/
def jvValidate (d : JsonValueDef) (v : JValue) : Bool :=
  match v with
  | JValue.null => !d.required
  | _ => dtIsInstance d.data_type v

/-- `JsonValue.convert_from` on an element with no converter: `None` maps to
the default, a value of the right type is returned unchanged
(`JsonString.convert_from` returns `string(value)`, the base
`JsonDataType.convert_from` returns `value`), a mistyped value maps to the
default. -/
def jvConvertFrom (d : JsonValueDef) (v : JValue) : JValue :=
  match v with
  | JValue.null => d.default
  | _ => if dtIsInstance d.data_type v then v else d.default

/-- `JsonArray.is_instance`: the value is an `Iterable` or an instance of
the array's element data type. -/
def arrayIsInstance (d : JsonValueDef) (v : JValue) : Bool :=
  pyIterable v || dtIsInstance d.data_type v

/-- `JsonArray.validate`: the inherited `JsonDataType.validate` first checks
`is_instance` (virtual, so `JsonArray.is_instance`); on success the method
re-checks `is_instance` and runs `for i, element in enumerate(value)`,
validating each element — `enumerate` raises `TypeError` (`none`) when the
value is not iterable, which happens exactly for non-iterable scalars that
passed `is_instance` through the element-type disjunct. -/
def arrayValidate (d : JsonValueDef) (v : JValue) : Option Bool :=
  if arrayIsInstance d v = false then some false
  else if arrayIsInstance d v then
    (pyElems v).map fun els => els.all (jvValidate d)
  else some (jvValidate d v)

/-- `JsonArray.convert_from` with no array-level converter: a failed
`validate` yields the default, a scalar instance of the element data type is
wrapped as a one-element list, and otherwise every enumerated element is
converted in place.  A `TypeError` escaping `validate` or `enumerate` is
`none`. -/
def arrayConvertFrom (d : JsonValueDef) (v : JValue) (default : JValue) :
    Option JValue :=
  match arrayValidate d v with
  | none => none
  | some false => some default
  | some true =>
    if dtIsInstance d.data_type v then
      some (JValue.arr [jvConvertFrom d v])
    else
      match pyElems v with
      | none => none
      | some els => some (JValue.arr (els.map (jvConvertFrom d)))

/-- A concrete static dependency declaration pinned to the package
`pkg.d`, accepting every version. -/
def witnessDep : SourceDep := ⟨some "pkg.d", false, fun _ => true⟩

/-- A concrete construction environment: the root `r` declares one static
dependency resolving to `d`; `d` declares nothing. -/
def witnessEnv : GraphEnv where
  src := fun a =>
    if a = "r" then ⟨0, true, some [("dep", witnessDep)]⟩ else ⟨0, true, none⟩
  dependencySources := fun p => if p = "pkg.d" then some "d" else none
  repoSources := fun _ => none
  installedPackages := []

/-- A concrete two-node graph for evaluating the propagation claims: the root
has one resolved dependency and no app declares input groups. -/
def witnessGraph : DepGraphModel where
  root := "r"
  nodes := ["r", "d"]
  app := fun a => if a = "r" then ⟨none, none, [(⟨none⟩, "d")]⟩ else ⟨none, none, []⟩
  repoSources := fun _ => none

/-- A concrete deployment specification requesting one specific input group. -/
def witnessSpec : DeploymentSpecification := ⟨"n", {"forwarder"}, some {"g1"}⟩

end Slim

/-! ## Claim theorems (first group) -/

namespace Slim

/-- C1: the input-group union operation satisfies: `ALL` is absorbing on
either side, `NONE ∪ NONE = NONE`, union is commutative, and union is
idempotent on input-group sets (values of `InputGroupsConverter`). -/
theorem claim_union_of_algebra :
    (∀ X : Finset String, unionOf allInputGroups X = allInputGroups ∧
      unionOf X allInputGroups = allInputGroups) ∧
    unionOf noInputGroups noInputGroups = noInputGroups ∧
    (∀ X Y : Finset String, unionOf X Y = unionOf Y X) ∧
    (∀ X : Finset String, IsInputGroupSet X → unionOf X X = X) := by
  refine ⟨fun X => ⟨unionOf_all_left X, unionOf_all_right X⟩, ?_, unionOf_comm, unionOf_idem⟩
  simp [unionOf, noInputGroups]

/-- Witness for C1: the idempotence component applied to the concrete
input-group set containing only the string `"a"`. -/
theorem claim_union_of_algebra_witness :
    IsInputGroupSet {"a"} ∧ unionOf {"a"} {"a"} = ({"a"} : Finset String) := by
  have h : IsInputGroupSet {"a"} := (isInputGroupSet_iff _).mpr (Or.inr (by decide))
  exact ⟨h, claim_union_of_algebra.2.2.2 {"a"} h⟩

/-- C2: when the requested specification's `inputGroups` is absent or the
`ALL` sentinel, `get_deployment_specifications` returns a mapping whose keys
are exactly the graph's node list and which assigns the identical
specification to every node. -/
theorem claim_all_input_groups_broadcast (m : DepGraphModel)
    (spec : DeploymentSpecification) (fuel : Nat)
    (h : spec.inputGroups = none ∨ spec.inputGroups = some allInputGroups) :
    ∃ res, getDeploymentSpecifications m spec fuel = some res ∧
      res.map Prod.fst = m.nodes ∧ ∀ p ∈ res, p.2 = spec := by
  refine ⟨m.nodes.map fun s => (s, spec), ?_, ?_, ?_⟩
  · unfold getDeploymentSpecifications
    rcases h with h | h <;> rw [h]
    simp
  · simp [Function.comp_def]
  · intro p hp
    simp only [List.mem_map] at hp
    obtain ⟨s, _, rfl⟩ := hp
    rfl

/-- Witness for C2: a two-node graph and a specification with the `ALL`
sentinel; both nodes receive the original specification. -/
theorem claim_all_input_groups_broadcast_witness :
    ∃ res,
      getDeploymentSpecifications
        ⟨"root", ["root", "dep"], fun _ => ⟨none, none, []⟩, fun _ => none⟩
        ⟨"fwd", {"forwarder"}, some allInputGroups⟩ 0 = some res ∧
      res.map Prod.fst = ["root", "dep"] ∧
      ∀ p ∈ res, p.2 = ⟨"fwd", {"forwarder"}, some allInputGroups⟩ :=
  claim_all_input_groups_broadcast _ _ 0 (Or.inr rfl)

/-- C6: an exclusion pattern is selected for a deployment specification's
workload exactly when the workload is contained in the rule's excluded
workload set. -/
theorem claim_exclusion_rule_selection (workload : Finset String) (p : List PatternPart) :
    p ∈ selectedExclusionPatterns workload ↔
      ∃ excluded, (p, excluded) ∈ exclusionRule ∧ workload ⊆ excluded := by
  unfold selectedExclusionPatterns
  simp only [List.mem_map, List.mem_filter]
  constructor
  · rintro ⟨⟨q, excluded⟩, ⟨hmem, hcard⟩, rfl⟩
    refine ⟨excluded, hmem, ?_⟩
    simpa [Finset.card_eq_zero, Finset.sdiff_eq_empty_iff_subset] using hcard
  · rintro ⟨excluded, hmem, hsub⟩
    refine ⟨(p, excluded), ⟨hmem, ?_⟩, rfl⟩
    simpa [Finset.card_eq_zero, Finset.sdiff_eq_empty_iff_subset] using hsub

end Slim


namespace Slim

/-! ### Association-list lemmas -/

theorem alookup_cons {α : Type} (x y : AppId) (v : α) (rest : List (AppId × α)) :
    alookup x ((y, v) :: rest) = if x = y then some v else alookup x rest := rfl

theorem alookup_append_of_some {α : Type} {m : List (AppId × α)} {k : AppId} {w : α}
    (h : alookup k m = some w) (l : List (AppId × α)) : alookup k (m ++ l) = some w := by
  induction m with
  | nil => exact Option.noConfusion h
  | cons p rest ih =>
    obtain ⟨a, b⟩ := p
    rw [alookup_cons] at h
    rw [List.cons_append, alookup_cons]
    by_cases hk : k = a
    · rwa [if_pos hk] at h ⊢
    · rw [if_neg hk] at h ⊢
      exact ih h

theorem alookup_append_of_none {α : Type} {m : List (AppId × α)} {k : AppId}
    (h : alookup k m = none) (l : List (AppId × α)) : alookup k (m ++ l) = alookup k l := by
  induction m with
  | nil => rfl
  | cons p rest ih =>
    obtain ⟨a, b⟩ := p
    rw [alookup_cons] at h
    rw [List.cons_append, alookup_cons]
    by_cases hk : k = a
    · rw [if_pos hk] at h
      exact Option.noConfusion h
    · rw [if_neg hk] at h ⊢
      exact ih h

theorem alookup_map_ne {α : Type} (m : List (AppId × α)) (k k' : AppId) (v : α)
    (h : k' ≠ k) :
    alookup k' (m.map fun p => if p.1 = k then (k, v) else p) = alookup k' m := by
  induction m with
  | nil => rfl
  | cons p rest ih =>
    obtain ⟨a, b⟩ := p
    rw [List.map_cons]
    dsimp only
    by_cases ha : a = k
    · subst ha
      rw [if_pos rfl, alookup_cons, alookup_cons, if_neg h, if_neg h]
      exact ih
    · rw [if_neg ha, alookup_cons, alookup_cons]
      by_cases hk : k' = a
      · rw [if_pos hk, if_pos hk]
      · rw [if_neg hk, if_neg hk]
        exact ih

theorem alookup_map_eq {α : Type} (m : List (AppId × α)) (k : AppId) (v : α)
    (h : (alookup k m).isSome) :
    alookup k (m.map fun p => if p.1 = k then (k, v) else p) = some v := by
  induction m with
  | nil => simp [alookup] at h
  | cons p rest ih =>
    obtain ⟨a, b⟩ := p
    rw [List.map_cons]
    dsimp only
    by_cases ha : a = k
    · subst ha
      rw [if_pos rfl, alookup_cons, if_pos rfl]
    · rw [if_neg ha, alookup_cons, if_neg (fun hk => ha hk.symm)]
      rw [alookup_cons, if_neg (fun hk => ha hk.symm)] at h
      exact ih h

theorem alookup_odSet {α : Type} (m : List (AppId × α)) (k k' : AppId) (v : α) :
    alookup k' (odSet m k v) = if k' = k then some v else alookup k' m := by
  unfold odSet
  split
  · rename_i hsome
    by_cases h : k' = k
    · subst h
      rw [if_pos rfl]
      exact alookup_map_eq m k' v hsome
    · rw [if_neg h]
      exact alookup_map_ne m k k' v h
  · rename_i hnone
    have hm : alookup k m = none := by
      rcases hx : alookup k m with _ | w
      · rfl
      · rw [hx] at hnone
        simp at hnone
    by_cases h : k' = k
    · subst h
      rw [alookup_append_of_none hm, alookup_cons, if_pos rfl, if_pos rfl]
    · rw [if_neg h]
      rcases hx : alookup k' m with _ | w
      · rw [alookup_append_of_none hx, alookup_cons, if_neg h]
        rfl
      · rw [alookup_append_of_some hx]

theorem unionOf_subset_union (a b : Finset String) : unionOf a b ⊆ a ∪ b := by
  unfold unionOf
  split
  · rename_i h
    intro x hx
    rw [allInputGroups, Finset.mem_singleton] at hx
    subst hx
    rcases h with h | h
    · exact Finset.mem_union_left _ h
    · exact Finset.mem_union_right _ h
  · exact subset_rfl

/-! ### Soundness of the requirements computation -/

theorem reqAliasLoop_sound (m : DepGraphModel) (rootIgs : Finset String) (aId : AppId) :
    ∀ (aliases : List (String × Finset String)) (reqs reqs' : List (AppId × Finset String)),
      reqAliasLoop m aId aliases reqs = some reqs' →
      (∀ al req, (al, req) ∈ aliases → ∀ dId, resolvesTo m aId al dId →
        ∀ g ∈ req, Active m rootIgs dId g) →
      ReqsSound m rootIgs reqs → ReqsSound m rootIgs reqs' := by
  intro aliases
  induction aliases with
  | nil =>
    intro reqs reqs' hrun _ hreqs
    rw [reqAliasLoop] at hrun
    cases hrun
    exact hreqs
  | cons hd rest ih =>
    obtain ⟨al, requirement⟩ := hd
    intro reqs reqs' hrun hA hreqs
    rw [reqAliasLoop] at hrun
    split at hrun
    · exact Option.noConfusion hrun
    rename_i depDecls hdecls
    split at hrun
    · exact Option.noConfusion hrun
    rename_i decl hdecl
    split at hrun
    · exact Option.noConfusion hrun
    rename_i pkg hpkg
    split at hrun
    · exact Option.noConfusion hrun
    rename_i dId hsrc
    split at hrun
    · rename_i hingraph
      refine ih _ _ hrun (fun al' req' hmem => hA al' req' (List.mem_cons_of_mem _ hmem)) ?_
      intro d R hR g hg
      rw [alookup_odSet] at hR
      by_cases hd : d = dId
      · subst hd
        rw [if_pos rfl] at hR
        cases hR
        have hres : resolvesTo m aId al d := ⟨depDecls, decl, pkg, hdecls, hdecl, hpkg, hsrc⟩
        have hmem := unionOf_subset_union ((alookup d reqs).getD noInputGroups) requirement hg
        rw [Finset.mem_union] at hmem
        rcases hmem with hprev | hreq
        · rcases hpv : alookup d reqs with _ | P
          · rw [hpv] at hprev
            simp [noInputGroups] at hprev
          · rw [hpv] at hprev
            exact hreqs d P hpv g hprev
        · exact hA al requirement (List.mem_cons_self _ _) d hres g hreq
      · rw [if_neg hd] at hR
        exact hreqs d R hR g hg
    · exact Option.noConfusion hrun

theorem reqGroupLoop_sound (m : DepGraphModel) (rootIgs : Finset String) (aId : AppId)
    (groups : List (String × InputGroup)) :
    ∀ (names : List String) (reqs reqs' : List (AppId × Finset String)),
      reqGroupLoop m aId groups names reqs = some reqs' →
      (∀ name ∈ names, Active m rootIgs aId name) →
      (m.app aId).inputGroups = some groups →
      ReqsSound m rootIgs reqs → ReqsSound m rootIgs reqs' := by
  intro names
  induction names with
  | nil =>
    intro reqs reqs' hrun _ _ hreqs
    rw [reqGroupLoop] at hrun
    cases hrun
    exact hreqs
  | cons name rest ih =>
    intro reqs reqs' hrun hact hgroups hreqs
    rw [reqGroupLoop] at hrun
    split at hrun
    · exact ih _ _ hrun (fun n hn => hact n (List.mem_cons_of_mem _ hn)) hgroups hreqs
    rename_i group hgrp
    split at hrun
    · exact ih _ _ hrun (fun n hn => hact n (List.mem_cons_of_mem _ hn)) hgroups hreqs
    rename_i aliases hreq
    split at hrun
    · exact Option.noConfusion hrun
    rename_i reqs₁ halias
    refine ih _ _ hrun (fun n hn => hact n (List.mem_cons_of_mem _ hn)) hgroups ?_
    refine reqAliasLoop_sound m rootIgs aId aliases reqs reqs₁ halias ?_ hreqs
    intro al req hmem dId hres g hg
    exact Active.step groups group aliases al req
      (hact name (List.mem_cons_self _ _)) hgroups hgrp hreq hmem hres hg

theorem computeRequirements_sound (m : DepGraphModel) (rootIgs : Finset String)
    (aId : AppId) (igs : Finset String) (reqs : List (AppId × Finset String))
    (hrun : computeRequirements m aId igs = some reqs)
    (hact : ∀ g ∈ igs, Active m rootIgs aId g) :
    ReqsSound m rootIgs reqs := by
  unfold computeRequirements at hrun
  split at hrun
  · cases hrun
    intro d R hR
    exact Option.noConfusion hR
  · rename_i groups hgroups
    refine reqGroupLoop_sound m rootIgs aId groups _ [] reqs hrun ?_ hgroups ?_
    · intro name hn
      exact hact name ((Finset.mem_sort _).mp hn)
    · intro d R hR
      exact Option.noConfusion hR

/-! ### Soundness of the propagation recursion -/

/-- Soundness property of a partial result map: every group assigned to a
node is active at that node. -/
def ResultSound (m : DepGraphModel) (rootIgs : Finset String)
    (result : List (AppId × Finset String)) : Prop :=
  ∀ a ig, alookup a result = some ig → ∀ g ∈ ig, Active m rootIgs a g

theorem goDeps_sound (m : DepGraphModel) (rootIgs : Finset String)
    (step : AppId → Finset String → List (AppId × Finset String) →
      Option (List (AppId × Finset String)))
    (hstep : ∀ aId igs result result',
      step aId igs result = some result' →
      (∀ g ∈ igs, Active m rootIgs aId g) →
      ResultSound m rootIgs result → ResultSound m rootIgs result') :
    ∀ deps reqs result result',
      goDeps step deps reqs result = some result' →
      ReqsSound m rootIgs reqs →
      ResultSound m rootIgs result → ResultSound m rootIgs result' := by
  intro deps
  induction deps with
  | nil =>
    intro reqs result result' hrun _ hres
    rw [goDeps] at hrun
    cases hrun
    exact hres
  | cons hd rest ihdeps =>
    obtain ⟨decl, dId⟩ := hd
    intro reqs result result' hrun hreqs hres
    rw [goDeps] at hrun
    split at hrun
    · exact Option.noConfusion hrun
    rename_i result₁ hstepeq
    have hig : ∀ g ∈ (alookup dId reqs).getD noInputGroups, Active m rootIgs dId g := by
      intro g hg
      rcases hq : alookup dId reqs with _ | R
      · rw [hq] at hg
        simp [noInputGroups] at hg
      · rw [hq] at hg
        exact hreqs dId R hq g (by simpa using hg)
    have hchild : ∀ g ∈ (match alookup dId result with
        | some prev => unionOf prev ((alookup dId reqs).getD noInputGroups)
        | none => (alookup dId reqs).getD noInputGroups), Active m rootIgs dId g := by
      intro g hg
      rcases hp : alookup dId result with _ | prev
      · rw [hp] at hg
        exact hig g hg
      · rw [hp] at hg
        have hm := unionOf_subset_union prev ((alookup dId reqs).getD noInputGroups) hg
        rw [Finset.mem_union] at hm
        rcases hm with h | h
        · exact hres dId prev hp g h
        · exact hig g h
    exact ihdeps _ _ _ hrun hreqs (hstep dId _ result result₁ hstepeq hchild hres)

theorem getDeploySpecsRec_sound (m : DepGraphModel) (rootIgs : Finset String) :
    ∀ fuel aId igs result result',
      getDeploySpecsRec m fuel aId igs result = some result' →
      (∀ g ∈ igs, Active m rootIgs aId g) →
      ResultSound m rootIgs result → ResultSound m rootIgs result' := by
  intro fuel
  induction fuel with
  | zero =>
    intro aId igs result result' hrun
    rw [getDeploySpecsRec] at hrun
    exact Option.noConfusion hrun
  | succ fuel ih =>
    intro aId igs result result' hrun hact hres
    rw [getDeploySpecsRec] at hrun
    simp only at hrun
    split at hrun
    · exact Option.noConfusion hrun
    rename_i reqs hreqs
    refine goDeps_sound m rootIgs (getDeploySpecsRec m fuel) ih _ _ _ _ hrun
      (computeRequirements_sound m rootIgs aId igs reqs hreqs hact) ?_
    intro a ig hlook g hg
    rw [alookup_odSet] at hlook
    by_cases ha : a = aId
    · subst ha
      rw [if_pos rfl] at hlook
      cases hlook
      exact hact g hg
    · rw [if_neg ha] at hlook
      exact hres a ig hlook g hg

theorem alookup_map_wrapSpec (nm : String) (wl : Finset String)
    (l : List (AppId × Finset String)) (k : AppId) :
    alookup k (l.map fun p => (p.1, (⟨nm, wl, some p.2⟩ : DeploymentSpecification))) =
      (alookup k l).map (fun ig => (⟨nm, wl, some ig⟩ : DeploymentSpecification)) := by
  induction l with
  | nil => rfl
  | cons p rest ih =>
    obtain ⟨a, b⟩ := p
    rw [List.map_cons]
    dsimp only
    rw [alookup_cons, alookup_cons]
    by_cases hk : k = a
    · rw [if_pos hk, if_pos hk]
      rfl
    · rw [if_neg hk, if_neg hk]
      exact ih

/-- Inversion: a group active at a non-root node witnesses an active
requirement targeting that node. -/
theorem requiredActive_of_active (m : DepGraphModel) (rootIgs : Finset String)
    (d : AppId) (g : String) (h : Active m rootIgs d g) (hroot : d ≠ m.root) :
    RequiredActive m rootIgs d := by
  cases h with
  | root _ _ => exact absurd rfl hroot
  | step groups group aliases al requirement hact hgroups hgrp hreq hmem hres _ =>
    exact ⟨_, _, groups, group, aliases, al, requirement,
      hact, hgroups, hgrp, hreq, hmem, hres⟩

end Slim

namespace Slim

/-- C3: for a specific (non-`ALL`, non-absent) `inputGroups` request, every
dependency node that is not declared as required by any input group active
along any path from the root is assigned `inputGroups = NONE` in the result,
never `ALL`. -/
theorem claim_unrequired_dependency_gets_none (m : DepGraphModel)
    (spec : DeploymentSpecification) (fuel : Nat) (igs : Finset String)
    (res : List (AppId × DeploymentSpecification)) (d : AppId)
    (s : DeploymentSpecification)
    (hrun : getDeploymentSpecifications m spec fuel = some res)
    (higs : spec.inputGroups = some igs) (hall : igs ≠ allInputGroups)
    (hroot : d ≠ m.root) (hreq : ¬ RequiredActive m igs d)
    (hlook : alookup d res = some s) :
    s.inputGroups = some noInputGroups ∧ s.inputGroups ≠ some allInputGroups := by
  unfold getDeploymentSpecifications at hrun
  rw [higs] at hrun
  simp only [if_neg hall] at hrun
  rcases hrec : getDeploySpecsRec m fuel m.root igs [] with _ | inner <;> rw [hrec] at hrun
  · exact Option.noConfusion hrun
  simp only [Option.map_some'] at hrun
  cases hrun
  rw [alookup_map_wrapSpec] at hlook
  rcases hin : alookup d inner with _ | ig <;> rw [hin] at hlook
  · exact Option.noConfusion hlook
  simp only [Option.map_some'] at hlook
  cases hlook
  have hsound : ResultSound m igs inner := by
    refine getDeploySpecsRec_sound m igs fuel m.root igs [] inner hrec ?_ ?_
    · intro g hg
      exact Active.root g hg
    · intro a ig' hl
      exact Option.noConfusion hl
  have hempty : ig = noInputGroups := by
    rw [noInputGroups, Finset.eq_empty_iff_forall_not_mem]
    intro g hg
    exact hreq (requiredActive_of_active m igs d g (hsound d ig hin g hg) hroot)
  constructor
  · rw [hempty]
  · rw [hempty]
    intro h
    have h' : some noInputGroups = some allInputGroups := h
    have hx : noInputGroups = allInputGroups := by injection h'
    have hmem : ("*" : String) ∈ noInputGroups := by
      rw [hx]
      simp [allInputGroups]
    simp [noInputGroups] at hmem

/-- Witness for C3: in the concrete two-node graph the dependency is required
by no input group, and the propagation assigns it the empty input-group set. -/
theorem claim_unrequired_dependency_gets_none_witness :
    (⟨"n", ({"forwarder"} : Finset String), some noInputGroups⟩ :
        DeploymentSpecification).inputGroups = some noInputGroups ∧
    (⟨"n", ({"forwarder"} : Finset String), some noInputGroups⟩ :
        DeploymentSpecification).inputGroups ≠ some allInputGroups :=
  claim_unrequired_dependency_gets_none witnessGraph witnessSpec 2 {"g1"}
    [("r", ⟨"n", {"forwarder"}, some {"g1"}⟩), ("d", ⟨"n", {"forwarder"}, some noInputGroups⟩)]
    "d" ⟨"n", {"forwarder"}, some noInputGroups⟩
    (by decide)
    rfl
    (by decide)
    (by decide)
    (by
      rintro ⟨a, gname, groups, group, aliases, al, requirement, hact, hgroups, -⟩
      have hnone : (witnessGraph.app a).inputGroups = none := by
        by_cases h : a = "r" <;> simp [witnessGraph, h]
      rw [hnone] at hgroups
      exact Option.noConfusion hgroups)
    (by decide)

end Slim

namespace Slim

/-! ### Cycle-detection lemmas -/

theorem visitList_mono
    (step : Finset AppId → AppId → Option (Bool × Finset AppId))
    (hstep : ∀ visited n b visited', step visited n = some (b, visited') → visited ⊆ visited')
    (path : Finset AppId) :
    ∀ ns visited b visited',
      visitList step path ns visited = some (b, visited') → visited ⊆ visited' := by
  intro ns
  induction ns with
  | nil =>
    intro visited b visited' hrun
    rw [visitList] at hrun
    cases hrun
    exact subset_rfl
  | cons n ns ih =>
    intro visited b visited' hrun
    rw [visitList] at hrun
    split at hrun
    · cases hrun
      exact subset_rfl
    · split at hrun
      · exact Option.noConfusion hrun
      · rename_i visited₁ hstepeq
        cases hrun
        exact hstep _ _ _ _ hstepeq
      · rename_i visited₁ hstepeq
        exact (hstep _ _ _ _ hstepeq).trans (ih _ _ _ hrun)

theorem visit_mono (adj : AppId → List AppId) :
    ∀ fuel path visited a b visited',
      visit adj fuel path visited a = some (b, visited') → visited ⊆ visited' := by
  intro fuel
  induction fuel with
  | zero =>
    intro path visited a b visited' hrun
    rw [visit] at hrun
    exact Option.noConfusion hrun
  | succ fuel ih =>
    intro path visited a b visited' hrun
    rw [visit] at hrun
    simp only at hrun
    split at hrun
    · cases hrun
      exact subset_rfl
    · have hsub := visitList_mono (visit adj fuel (insert a path))
        (fun v n b' v' h => ih _ v n b' v' h) (insert a path)
        (adj a) (insert a visited) b visited' hrun
      exact (Finset.subset_insert a visited).trans hsub

theorem visitList_true_cycle (adj : AppId → List AppId)
    (step : Finset AppId → AppId → Option (Bool × Finset AppId))
    (path : Finset AppId) (a : AppId)
    (hpath : ∀ v ∈ path, Relation.ReflTransGen (Edge adj) v a)
    (hstep : ∀ visited n visited', Edge adj a n →
      step visited n = some (true, visited') → ∃ v, Relation.TransGen (Edge adj) v v) :
    ∀ ns visited visited', (∀ n ∈ ns, Edge adj a n) →
      visitList step path ns visited = some (true, visited') →
      ∃ v, Relation.TransGen (Edge adj) v v := by
  intro ns
  induction ns with
  | nil =>
    intro visited visited' _ hrun
    rw [visitList] at hrun
    exact absurd hrun (by simp)
  | cons n ns ih =>
    intro visited visited' hmem hrun
    rw [visitList] at hrun
    split at hrun
    · rename_i hnp
      exact ⟨n, Relation.TransGen.tail' (hpath n hnp) (hmem n (List.mem_cons_self _ _))⟩
    · split at hrun
      · exact Option.noConfusion hrun
      · rename_i visited₁ hstepeq
        exact hstep _ _ _ (hmem n (List.mem_cons_self _ _)) hstepeq
      · rename_i visited₁ hstepeq
        exact ih _ _ (fun n' hn' => hmem n' (List.mem_cons_of_mem _ hn')) hrun

theorem visit_true_cycle (adj : AppId → List AppId) :
    ∀ fuel path visited a visited',
      (∀ v ∈ path, Relation.ReflTransGen (Edge adj) v a) →
      visit adj fuel path visited a = some (true, visited') →
      ∃ v, Relation.TransGen (Edge adj) v v := by
  intro fuel
  induction fuel with
  | zero =>
    intro path visited a visited' _ hrun
    rw [visit] at hrun
    exact Option.noConfusion hrun
  | succ fuel ih =>
    intro path visited a visited' hpath hrun
    rw [visit] at hrun
    simp only at hrun
    split at hrun
    · exact absurd hrun (by simp)
    · refine visitList_true_cycle adj (visit adj fuel (insert a path)) (insert a path) a
        ?_ ?_ (adj a) (insert a visited) visited' (fun n hn => hn) hrun
      · intro v hv
        rcases Finset.mem_insert.mp hv with rfl | hv
        · exact Relation.ReflTransGen.refl
        · exact hpath v hv
      · intro visitedX n visitedY hedge hstepeq
        refine ih (insert a path) visitedX n visitedY ?_ hstepeq
        intro v hv
        rcases Finset.mem_insert.mp hv with rfl | hv
        · exact Relation.ReflTransGen.single hedge
        · exact (hpath v hv).tail hedge

theorem isCyclicAux_true_cycle (adj : AppId → List AppId) (fuel : Nat) :
    ∀ rest visited, isCyclicAux adj fuel rest visited = some true →
      ∃ v, Relation.TransGen (Edge adj) v v := by
  intro rest
  induction rest with
  | nil =>
    intro visited hrun
    rw [isCyclicAux] at hrun
    exact absurd hrun (by simp)
  | cons a rest ih =>
    intro visited hrun
    rw [isCyclicAux] at hrun
    split at hrun
    · exact Option.noConfusion hrun
    · rename_i visited' hv
      exact visit_true_cycle adj fuel ∅ visited a visited' (by simp) hv
    · exact ih _ hrun

theorem visitList_ne_none (nodesF : Finset AppId)
    (step : Finset AppId → AppId → Option (Bool × Finset AppId)) (fuelB : Nat)
    (hmono : ∀ visited n b visited', step visited n = some (b, visited') → visited ⊆ visited')
    (hnn : ∀ visited n, n ∈ nodesF → (nodesF \ visited).card < fuelB → step visited n ≠ none)
    (path : Finset AppId) :
    ∀ ns visited, (∀ n ∈ ns, n ∈ nodesF) → (nodesF \ visited).card < fuelB →
      visitList step path ns visited ≠ none := by
  intro ns
  induction ns with
  | nil =>
    intro visited _ _
    rw [visitList]
    simp
  | cons n ns ih =>
    intro visited hmem hcard
    rw [visitList]
    split
    · simp
    · rcases hstep : step visited n with _ | ⟨b, visited'⟩
      · exact absurd hstep (hnn visited n (hmem n (List.mem_cons_self _ _)) hcard)
      · cases b
        · have hsub := hmono visited n false visited' hstep
          have hcard' : (nodesF \ visited').card < fuelB :=
            lt_of_le_of_lt
              (Finset.card_le_card (Finset.sdiff_subset_sdiff subset_rfl hsub)) hcard
          exact ih visited' (fun n' hn' => hmem n' (List.mem_cons_of_mem _ hn')) hcard'
        · simp

theorem visit_ne_none (adj : AppId → List AppId) (nodesF : Finset AppId)
    (hwf : ∀ v ∈ nodesF, ∀ w ∈ adj v, w ∈ nodesF) :
    ∀ fuel path visited a, a ∈ nodesF → (nodesF \ visited).card < fuel →
      visit adj fuel path visited a ≠ none := by
  intro fuel
  induction fuel with
  | zero =>
    intro path visited a _ hcard
    exact absurd hcard (Nat.not_lt_zero _)
  | succ fuel ih =>
    intro path visited a ha hcard
    rw [visit]
    simp only
    split
    · simp
    · rename_i hnv
      refine visitList_ne_none nodesF (visit adj fuel (insert a path)) fuel
        (fun v n b v' h => visit_mono adj fuel _ v n b v' h)
        (fun v n hn hc => ih (insert a path) v n hn hc)
        (insert a path) (adj a) (insert a visited) (fun n hn => hwf a ha n hn) ?_
      have h1 : nodesF \ insert a visited = (nodesF \ visited).erase a := by
        ext x
        simp only [Finset.mem_sdiff, Finset.mem_erase, Finset.mem_insert]
        tauto
      have ha2 : a ∈ nodesF \ visited := Finset.mem_sdiff.mpr ⟨ha, hnv⟩
      have hpos : 0 < (nodesF \ visited).card := Finset.card_pos.mpr ⟨a, ha2⟩
      rw [h1, Finset.card_erase_of_mem ha2]
      omega

theorem isCyclicAux_ne_none (adj : AppId → List AppId) (nodesF : Finset AppId)
    (hwf : ∀ v ∈ nodesF, ∀ w ∈ adj v, w ∈ nodesF) (fuel : Nat) :
    ∀ rest visited, (∀ a ∈ rest, a ∈ nodesF) → (nodesF \ visited).card < fuel →
      isCyclicAux adj fuel rest visited ≠ none := by
  intro rest
  induction rest with
  | nil =>
    intro visited _ _
    rw [isCyclicAux]
    simp
  | cons a rest ih =>
    intro visited hmem hcard
    rw [isCyclicAux]
    rcases hv : visit adj fuel ∅ visited a with _ | ⟨b, visited'⟩
    · exact absurd hv (visit_ne_none adj nodesF hwf fuel ∅ visited a
        (hmem a (List.mem_cons_self _ _)) hcard)
    · cases b
      · have hsub := visit_mono adj fuel ∅ visited a false visited' hv
        have hcard' : (nodesF \ visited').card < fuel :=
          lt_of_le_of_lt
            (Finset.card_le_card (Finset.sdiff_subset_sdiff subset_rfl hsub)) hcard
        exact ih visited' (fun a' ha' => hmem a' (List.mem_cons_of_mem _ ha')) hcard'
      · simp

/-- The record of a completed `visit`: every fully explored node cannot reach
a cycle. -/
def CycleInv (adj : AppId → List AppId) (visited path : Finset AppId) : Prop :=
  ∀ v ∈ visited, v ∉ path → ¬ CanReachCycle adj v

theorem canReachCycle_step (adj : AppId → List AppId) (a : AppId)
    (h : CanReachCycle adj a) : ∃ n, Edge adj a n ∧ CanReachCycle adj n := by
  obtain ⟨w, hr, hc⟩ := h
  rcases Relation.ReflTransGen.cases_head hr with rfl | ⟨n, hedge, hrest⟩
  · obtain ⟨n, hedge, hrest⟩ := Relation.TransGen.head'_iff.mp hc
    exact ⟨n, hedge, ⟨a, hrest, hc⟩⟩
  · exact ⟨n, hedge, ⟨w, hrest, hc⟩⟩

theorem visitList_false_inv (adj : AppId → List AppId)
    (step : Finset AppId → AppId → Option (Bool × Finset AppId))
    (path' : Finset AppId)
    (hstep : ∀ visited n visited', n ∉ path' →
      step visited n = some (false, visited') → CycleInv adj visited path' →
      visited ⊆ visited' ∧ n ∈ visited' ∧ CycleInv adj visited' path') :
    ∀ ns visited visited',
      visitList step path' ns visited = some (false, visited') →
      CycleInv adj visited path' →
      visited ⊆ visited' ∧ CycleInv adj visited' path' ∧
        ∀ n ∈ ns, n ∉ path' ∧ n ∈ visited' := by
  intro ns
  induction ns with
  | nil =>
    intro visited visited' hrun hinv
    rw [visitList] at hrun
    cases hrun
    exact ⟨subset_rfl, hinv, by simp⟩
  | cons n ns ih =>
    intro visited visited' hrun hinv
    rw [visitList] at hrun
    split at hrun
    · exact absurd hrun (by simp)
    · rename_i hnp
      split at hrun
      · exact Option.noConfusion hrun
      · exact absurd hrun (by simp)
      · rename_i visited₁ hstepeq
        obtain ⟨hsub1, hnin, hinv1⟩ := hstep visited n visited₁ hnp hstepeq hinv
        obtain ⟨hsub2, hinv2, hrest⟩ := ih visited₁ visited' hrun hinv1
        refine ⟨hsub1.trans hsub2, hinv2, ?_⟩
        intro n' hn'
        rcases List.mem_cons.mp hn' with rfl | hn'
        · exact ⟨hnp, hsub2 hnin⟩
        · exact hrest n' hn'

theorem visit_false_inv (adj : AppId → List AppId) :
    ∀ fuel path visited a visited',
      a ∉ path →
      visit adj fuel path visited a = some (false, visited') →
      CycleInv adj visited path →
      visited ⊆ visited' ∧ a ∈ visited' ∧ CycleInv adj visited' path := by
  intro fuel
  induction fuel with
  | zero =>
    intro path visited a visited' _ hrun
    rw [visit] at hrun
    exact Option.noConfusion hrun
  | succ fuel ih =>
    intro path visited a visited' hap hrun hinv
    rw [visit] at hrun
    simp only at hrun
    split at hrun
    · rename_i hav
      cases hrun
      exact ⟨subset_rfl, hav, hinv⟩
    · rename_i hav
      have hinv' : CycleInv adj (insert a visited) (insert a path) := by
        intro v hv hvp
        rcases Finset.mem_insert.mp hv with rfl | hv
        · exact absurd (Finset.mem_insert_self v path) hvp
        · exact hinv v hv (fun hvpath => hvp (Finset.mem_insert_of_mem hvpath))
      obtain ⟨hsub, hinvL, hns⟩ := visitList_false_inv adj
        (visit adj fuel (insert a path)) (insert a path)
        (fun v n v' hn h hi => ih (insert a path) v n v' hn h hi)
        (adj a) (insert a visited) visited' hrun hinv'
      have hain : a ∈ visited' := hsub (Finset.mem_insert_self a visited)
      have hacycle : ¬ CanReachCycle adj a := by
        intro hc
        obtain ⟨n, hedge, hcn⟩ := canReachCycle_step adj a hc
        obtain ⟨hnp, hnv⟩ := hns n hedge
        exact hinvL n hnv hnp hcn
      refine ⟨(Finset.subset_insert a visited).trans hsub, hain, ?_⟩
      intro v hv hvp
      by_cases hva : v = a
      · subst hva
        exact hacycle
      · refine hinvL v hv ?_
        intro hmem
        rcases Finset.mem_insert.mp hmem with h | h
        · exact hva h
        · exact hvp h

theorem isCyclicAux_false_inv (adj : AppId → List AppId) (fuel : Nat) :
    ∀ rest visited, isCyclicAux adj fuel rest visited = some false →
      CycleInv adj visited ∅ → ∀ a ∈ rest, ¬ CanReachCycle adj a := by
  intro rest
  induction rest with
  | nil =>
    intro visited _ _ a ha
    exact absurd ha (List.not_mem_nil a)
  | cons a rest ih =>
    intro visited hrun hinv a' ha'
    rw [isCyclicAux] at hrun
    split at hrun
    · exact Option.noConfusion hrun
    · exact absurd hrun (by simp)
    · rename_i visited' hv
      obtain ⟨hsub, hain, hinv'⟩ :=
        visit_false_inv adj fuel ∅ visited a visited' (Finset.not_mem_empty a) hv hinv
      rcases List.mem_cons.mp ha' with rfl | ha'
      · exact hinv' a' hain (Finset.not_mem_empty a')
      · exact ih visited' hrun hinv' a' ha'

end Slim

namespace Slim

/-- Correctness of `_is_cyclic` over any adjacency mapping closed on the
graph's node list: `True` whenever some node lies on a cycle (from any
traversal start order), `False` on every acyclic adjacency mapping. -/
theorem isCyclic_correct (adj : AppId → List AppId) (nodes : List AppId)
    (hwf : ∀ v ∈ nodes, ∀ w ∈ adj v, w ∈ nodes) :
    ((∃ v ∈ nodes, Relation.TransGen (Edge adj) v v) → isCyclic adj nodes = some true) ∧
    ((∀ v, ¬ Relation.TransGen (Edge adj) v v) → isCyclic adj nodes = some false) := by
  have hwfF : ∀ v ∈ nodes.toFinset, ∀ w ∈ adj v, w ∈ nodes.toFinset := by
    intro v hv w hw
    rw [List.mem_toFinset] at hv ⊢
    exact hwf v hv w hw
  have hne : isCyclic adj nodes ≠ none := by
    unfold isCyclic
    refine isCyclicAux_ne_none adj nodes.toFinset hwfF (nodes.length + 1) nodes ∅ ?_ ?_
    · intro a ha
      exact List.mem_toFinset.mpr ha
    · rw [Finset.sdiff_empty]
      have hle := List.toFinset_card_le nodes
      omega
  constructor
  · rintro ⟨v, hv, hcyc⟩
    rcases hres : isCyclic adj nodes with _ | b
    · exact absurd hres hne
    · cases b
      · exfalso
        have hnc := isCyclicAux_false_inv adj (nodes.length + 1) nodes ∅ hres
          (fun x hx => absurd hx (Finset.not_mem_empty x)) v hv
        exact hnc ⟨v, Relation.ReflTransGen.refl, hcyc⟩
      · rfl
  · intro hacyc
    rcases hres : isCyclic adj nodes with _ | b
    · exact absurd hres hne
    · cases b
      · rfl
      · exfalso
        obtain ⟨v, hv⟩ := isCyclicAux_true_cycle adj (nodes.length + 1) nodes ∅ hres
        exact hacyc v hv

/-- C4: over any adjacency mapping closed on the graph's node list,
`_is_cyclic` returns `True` exactly when a cycle exists — `True` whenever
some node lies on a cycle (regardless of the order nodes are tried from),
and `False` on every acyclic adjacency mapping. -/
theorem claim_is_cyclic_detects_cycles (adj : AppId → List AppId) (nodes : List AppId)
    (hwf : ∀ v ∈ nodes, ∀ w ∈ adj v, w ∈ nodes) :
    ((∃ v ∈ nodes, Relation.TransGen (Edge adj) v v) → isCyclic adj nodes = some true) ∧
    ((∀ v, ¬ Relation.TransGen (Edge adj) v v) → isCyclic adj nodes = some false) :=
  isCyclic_correct adj nodes hwf

/-- Witness for C4: the two-node cycle A to B to A is detected even when the
traversal starts from B. -/
theorem claim_is_cyclic_detects_cycles_witness :
    isCyclic (fun v => if v = "A" then ["B"] else if v = "B" then ["A"] else [])
      ["B", "A"] = some true :=
  (claim_is_cyclic_detects_cycles
      (fun v => if v = "A" then ["B"] else if v = "B" then ["A"] else [])
      ["B", "A"] (by decide)).1
    ⟨"B", by decide, by
      have h1 : Edge (fun v => if v = "A" then ["B"] else if v = "B" then ["A"] else [])
          "B" "A" := by simp [Edge]
      have h2 : Edge (fun v => if v = "A" then ["B"] else if v = "B" then ["A"] else [])
          "A" "B" := by simp [Edge]
      exact Relation.TransGen.head h1 (Relation.TransGen.single h2)⟩

end Slim

namespace Slim

/-! ### Graph-construction lemmas -/

theorem alookup_isSome_iff_mem {α : Type} (k : AppId) (m : List (AppId × α)) :
    (alookup k m).isSome = true ↔ k ∈ m.map Prod.fst := by
  induction m with
  | nil => simp [alookup]
  | cons p rest ih =>
    obtain ⟨a, b⟩ := p
    rw [alookup_cons]
    by_cases h : k = a
    · simp [h]
    · simp only [h, if_false, List.map_cons, List.mem_cons]
      simp [h, ih]

theorem alookup_mem {α : Type} {k : AppId} {m : List (AppId × α)} {v : α}
    (h : alookup k m = some v) : (k, v) ∈ m := by
  induction m with
  | nil => exact Option.noConfusion h
  | cons p rest ih =>
    obtain ⟨a, b⟩ := p
    rw [alookup_cons] at h
    by_cases hk : k = a
    · rw [if_pos hk] at h
      cases h
      subst hk
      exact List.mem_cons_self _ _
    · rw [if_neg hk] at h
      exact List.mem_cons_of_mem _ (ih h)

theorem mem_odSet {α : Type} {p : AppId × α} {m : List (AppId × α)} {k : AppId} {v : α}
    (h : p ∈ odSet m k v) : p ∈ m ∨ p = (k, v) := by
  unfold odSet at h
  split at h
  · rw [List.mem_map] at h
    obtain ⟨q, hq, hqe⟩ := h
    by_cases hqk : q.1 = k
    · rw [if_pos hqk] at hqe
      exact Or.inr hqe.symm
    · rw [if_neg hqk] at hqe
      exact Or.inl (hqe ▸ hq)
  · rw [List.mem_append] at h
    rcases h with h | h
    · exact Or.inl h
    · rw [List.mem_singleton] at h
      exact Or.inr h

theorem addSource_spec (env : GraphEnv) :
    ∀ fuel queue graph dts errs graph' dts' errs',
      addSource env fuel queue graph dts errs = some (graph', dts', errs') →
      (∀ k, k ∈ graph.map Prod.fst → k ∈ graph'.map Prod.fst) ∧
      (∀ q ∈ queue, q ∈ graph'.map Prod.fst) ∧
      (∀ k v, alookup k graph' = some v →
        alookup k graph = some v ∨ v = (getDependencies env k).1) ∧
      (∀ k, k ∈ graph'.map Prod.fst →
        k ∈ graph.map Prod.fst ∨ ∃ q ∈ queue, Relation.ReflTransGen (DepEdge env) q k) ∧
      ((∀ k v, alookup k graph = some v →
          ∀ d ∈ v.map Prod.snd, d ∈ graph.map Prod.fst ∨ d ∈ queue) →
        ∀ k v, alookup k graph' = some v →
          ∀ d ∈ v.map Prod.snd, d ∈ graph'.map Prod.fst) := by
  intro fuel
  induction fuel with
  | zero =>
    intro queue graph dts errs graph' dts' errs' hrun
    rw [addSource] at hrun
    exact Option.noConfusion hrun
  | succ fuel ih =>
    intro queue graph dts errs graph' dts' errs' hrun
    rw [addSource] at hrun
    cases queue with
    | nil =>
      simp only at hrun
      cases hrun
      refine ⟨fun k hk => hk, fun q hq => absurd hq (List.not_mem_nil q),
        fun k v h => Or.inl h, fun k hk => Or.inl hk, ?_⟩
      intro hclosed k v h d hd
      rcases hclosed k v h d hd with h' | h'
      · exact h'
      · exact absurd h' (List.not_mem_nil d)
    | cons a rest =>
      simp only at hrun
      split at hrun
      · rename_i hin
        obtain ⟨h1, h2, h3, h4, h5⟩ := ih rest graph dts errs graph' dts' errs' hrun
        have hamem : a ∈ graph.map Prod.fst := (alookup_isSome_iff_mem a graph).mp hin
        refine ⟨h1, ?_, h3, ?_, ?_⟩
        · intro q hq
          rcases List.mem_cons.mp hq with rfl | hq
          · exact h1 q hamem
          · exact h2 q hq
        · intro k hk
          rcases h4 k hk with h | ⟨q, hq, hr⟩
          · exact Or.inl h
          · exact Or.inr ⟨q, List.mem_cons_of_mem _ hq, hr⟩
        · intro hclosed
          refine h5 ?_
          intro k v h d hd
          rcases hclosed k v h d hd with h' | h'
          · exact Or.inl h'
          · rcases List.mem_cons.mp h' with rfl | h''
            · exact Or.inl hamem
            · exact Or.inr h''
      · rename_i hnin
        obtain ⟨h1, h2, h3, h4, h5⟩ := ih _ _ _ _ graph' dts' errs' hrun
        have hkeys2 : ∀ k, k ∈ (graph ++ [(a, (getDependencies env a).1)]).map Prod.fst ↔
            k ∈ graph.map Prod.fst ∨ k = a := by
          intro k
          simp
        have hold : ∀ k, k ∈ graph.map Prod.fst →
            k ∈ (graph ++ [(a, (getDependencies env a).1)]).map Prod.fst := by
          intro k hk
          exact (hkeys2 k).mpr (Or.inl hk)
        have hga : alookup a graph = none := by
          rcases hx : alookup a graph with _ | w
          · rfl
          · rw [hx] at hnin
            simp at hnin
        refine ⟨fun k hk => h1 k (hold k hk), ?_, ?_, ?_, ?_⟩
        · intro q hq
          rcases List.mem_cons.mp hq with rfl | hq
          · exact h1 q ((hkeys2 q).mpr (Or.inr rfl))
          · exact h2 q (List.mem_append_left _ hq)
        · intro k v h
          rcases h3 k v h with h' | h'
          · rcases hx : alookup k graph with _ | w
            · rw [alookup_append_of_none hx, alookup_cons] at h'
              by_cases hk : k = a
              · subst hk
                rw [if_pos rfl] at h'
                injection h' with hv
                subst hv
                exact Or.inr rfl
              · rw [if_neg hk] at h'
                exact Option.noConfusion h'
            · rw [alookup_append_of_some hx] at h'
              injection h' with hv
              subst hv
              exact Or.inl rfl
          · exact Or.inr h'
        · intro k hk
          rcases h4 k hk with h' | ⟨q, hq, hr⟩
          · rcases (hkeys2 k).mp h' with h'' | rfl
            · exact Or.inl h''
            · exact Or.inr ⟨k, List.mem_cons_self _ _, Relation.ReflTransGen.refl⟩
          · rcases List.mem_append.mp hq with hq' | hq'
            · exact Or.inr ⟨q, List.mem_cons_of_mem _ hq', hr⟩
            · refine Or.inr ⟨a, List.mem_cons_self _ _, Relation.ReflTransGen.head ?_ hr⟩
              exact hq'
        · intro hclosed
          refine h5 ?_
          intro k v h d hd
          rcases hx : alookup k graph with _ | w
          · rw [alookup_append_of_none hx, alookup_cons] at h
            by_cases hk : k = a
            · rw [if_pos hk] at h
              cases h
              exact Or.inr (List.mem_append_right _ hd)
            · rw [if_neg hk] at h
              exact Option.noConfusion h
          · rw [alookup_append_of_some hx] at h
            cases h
            rcases hclosed k v hx d hd with h' | h'
            · exact Or.inl (hold d h')
            · rcases List.mem_cons.mp h' with rfl | h''
              · exact Or.inl ((hkeys2 d).mpr (Or.inr rfl))
              · exact Or.inr (List.mem_append_left _ h'')

end Slim

namespace Slim

theorem addSource_errs (env : GraphEnv) (P : AppId → Prop)
    (hclosure : ∀ a, P a → ∀ d, DepEdge env a d → P d)
    (herr : ∀ a, P a → (getDependencies env a).2 = 0) :
    ∀ fuel queue graph dts errs graph' dts' errs',
      addSource env fuel queue graph dts errs = some (graph', dts', errs') →
      (∀ q ∈ queue, P q) → errs' = errs := by
  intro fuel
  induction fuel with
  | zero =>
    intro queue graph dts errs graph' dts' errs' hrun
    rw [addSource] at hrun
    exact Option.noConfusion hrun
  | succ fuel ih =>
    intro queue graph dts errs graph' dts' errs' hrun hq
    rw [addSource] at hrun
    cases queue with
    | nil =>
      simp only at hrun
      cases hrun
      rfl
    | cons a rest =>
      simp only at hrun
      split at hrun
      · exact ih _ _ _ _ _ _ _ hrun (fun q h => hq q (List.mem_cons_of_mem _ h))
      · have hPa : P a := hq a (List.mem_cons_self _ _)
        have hq2 : ∀ q ∈ rest ++ (getDependencies env a).1.map Prod.snd, P q := by
          intro q hmem
          rcases List.mem_append.mp hmem with h | h
          · exact hq q (List.mem_cons_of_mem _ h)
          · exact hclosure a hPa q h
        have := ih _ _ _ _ _ _ _ hrun hq2
        rw [this, herr a hPa]
        omega

theorem addDependents_good (env : GraphEnv) (a : AppId) :
    ∀ (deps : List (SourceDep × AppId)) dts,
      (∀ p ∈ deps, p.1.range (env.src p.2).version = true) →
      DtsGood env dts → DtsGood env (addDependents a deps dts) := by
  intro deps
  induction deps with
  | nil =>
    intro dts _ h
    exact h
  | cons p rest ih =>
    intro dts hdeps hgood
    refine ih _ (fun q hq => hdeps q (List.mem_cons_of_mem _ hq)) ?_
    intro entry hentry q hq
    rcases mem_odSet hentry with h | h
    · exact hgood entry h q hq
    · subst h
      rcases List.mem_append.mp hq with hq' | hq'
      · rcases hx : alookup p.2 dts with _ | lst
        · rw [hx] at hq'
          simp at hq'
        · rw [hx] at hq'
          exact hgood (p.2, lst) (alookup_mem hx) q (by simpa using hq')
      · rw [List.mem_singleton] at hq'
        subst hq'
        exact hdeps p (List.mem_cons_self _ _)

theorem addSource_dts (env : GraphEnv) (P : AppId → Prop)
    (hclosure : ∀ a, P a → ∀ d, DepEdge env a d → P d)
    (hgoodEdges : ∀ a, P a →
      ∀ p ∈ (getDependencies env a).1, p.1.range (env.src p.2).version = true) :
    ∀ fuel queue graph dts errs graph' dts' errs',
      addSource env fuel queue graph dts errs = some (graph', dts', errs') →
      (∀ q ∈ queue, P q) → DtsGood env dts → DtsGood env dts' := by
  intro fuel
  induction fuel with
  | zero =>
    intro queue graph dts errs graph' dts' errs' hrun
    rw [addSource] at hrun
    exact Option.noConfusion hrun
  | succ fuel ih =>
    intro queue graph dts errs graph' dts' errs' hrun hq hgood
    rw [addSource] at hrun
    cases queue with
    | nil =>
      simp only at hrun
      cases hrun
      exact hgood
    | cons a rest =>
      simp only at hrun
      split at hrun
      · exact ih _ _ _ _ _ _ _ hrun (fun q h => hq q (List.mem_cons_of_mem _ h)) hgood
      · have hPa : P a := hq a (List.mem_cons_self _ _)
        refine ih _ _ _ _ _ _ _ hrun ?_
          (addDependents_good env a _ dts (hgoodEdges a hPa) hgood)
        intro q hmem
        rcases List.mem_append.mp hmem with h | h
        · exact hq q (List.mem_cons_of_mem _ h)
        · exact hclosure a hPa q h

theorem checkEntry_eq_zero (env : GraphEnv) (k : AppId) :
    ∀ lst, (∀ q ∈ lst, q.1.range (env.src k).version = true) →
      checkEntry env k lst = 0 := by
  intro lst
  induction lst with
  | nil => intro _; rfl
  | cons q rest ih =>
    intro h
    rw [checkEntry, h q (List.mem_cons_self _ _), if_pos rfl,
      ih (fun q' hq' => h q' (List.mem_cons_of_mem _ hq'))]

theorem checkDependencies_eq_zero (env : GraphEnv) :
    ∀ dts, DtsGood env dts → checkDependencies env dts = 0 := by
  intro dts
  induction dts with
  | nil => intro _; rfl
  | cons p rest ih =>
    intro h
    obtain ⟨k, lst⟩ := p
    rw [checkDependencies,
      checkEntry_eq_zero env k lst (fun q hq => h (k, lst) (List.mem_cons_self _ _) q hq),
      ih (fun p' hp' q hq => h p' (List.mem_cons_of_mem _ hp') q hq)]

theorem truthyOptStr_iff (o : Option String) :
    truthyOptStr o = true ↔ ∃ s, o = some s ∧ s ≠ "" := by
  cases o with
  | none => simp [truthyOptStr]
  | some s =>
    by_cases h : s = ""
    · subst h
      simp [truthyOptStr]
    · simp [truthyOptStr, h]

theorem choosePackage_of_no_installed (env : GraphEnv) (name : String) (dep : SourceDep)
    (hinst : env.installedPackages = []) :
    choosePackage env name dep = if truthyOptStr dep.package then dep.package else none := by
  unfold choosePackage
  rw [hinst]
  split
  · rfl
  · simp

theorem getDependenciesLoop_resolved (env : GraphEnv)
    (hinst : env.installedPackages = []) :
    ∀ decls : List (String × SourceDep),
      (∀ name dep, (name, dep) ∈ decls → truthyOptStr dep.package = true →
        ∃ pkg d, dep.package = some pkg ∧ resolvePackage env pkg = some d ∧
          (env.src d).hasManifest = true ∧ dep.range (env.src d).version = true) →
      (getDependenciesLoop env decls).2 = 0 ∧
      (∀ p ∈ (getDependenciesLoop env decls).1,
        (∃ pkg, p.1.package = some pkg ∧ pkg ≠ "" ∧ resolvePackage env pkg = some p.2) ∧
          (∃ name, (name, p.1) ∈ decls) ∧ p.1.range (env.src p.2).version = true) ∧
      (∀ name dep pkg v, (name, dep) ∈ decls → dep.package = some pkg → pkg ≠ "" →
        resolvePackage env pkg = some v →
        v ∈ (getDependenciesLoop env decls).1.map Prod.snd) := by
  intro decls
  induction decls with
  | nil =>
    intro _
    refine ⟨rfl, ?_, ?_⟩
    · intro p hp
      exact absurd hp (List.not_mem_nil p)
    · intro name dep pkg v hmem
      exact absurd hmem (List.not_mem_nil _)
  | cons hd rest ih =>
    obtain ⟨name, dep⟩ := hd
    intro hres
    obtain ⟨ihz, ihmem, ihback⟩ :=
      ih (fun n d hm ht => hres n d (List.mem_cons_of_mem _ hm) ht)
    rw [getDependenciesLoop]
    by_cases htr : truthyOptStr dep.package = true
    · obtain ⟨pkg₀, d₀, hpkg₀, hres₀, hman₀, hrange₀⟩ :=
        hres name dep (List.mem_cons_self _ _) htr
      obtain ⟨s, hs, hsne⟩ := (truthyOptStr_iff dep.package).mp htr
      have hspkg : s = pkg₀ := by
        rw [hs] at hpkg₀
        injection hpkg₀
      subst hspkg
      rw [choosePackage_of_no_installed env name dep hinst, if_pos htr, hs]
      simp only [hres₀, hman₀, if_pos rfl, hrange₀]
      refine ⟨ihz, ?_, ?_⟩
      · intro p hp
        rcases List.mem_cons.mp hp with rfl | hp
        · exact ⟨⟨s, hs, hsne, hres₀⟩, ⟨name, List.mem_cons_self _ _⟩, hrange₀⟩
        · obtain ⟨hpk, ⟨n', hn'⟩, hr⟩ := ihmem p hp
          exact ⟨hpk, ⟨n', List.mem_cons_of_mem _ hn'⟩, hr⟩
      · intro name' dep' pkg' v hmem hpkg' hne' hresv
        rcases List.mem_cons.mp hmem with heq | hmem'
        · injection heq with hn hd
          subst hd
          rw [hs] at hpkg'
          injection hpkg' with hpe
          subst hpe
          rw [hres₀] at hresv
          injection hresv with hv
          subst hv
          exact List.mem_cons_self _ _
        · exact List.mem_cons_of_mem _ (ihback name' dep' pkg' v hmem' hpkg' hne' hresv)
    · rw [choosePackage_of_no_installed env name dep hinst,
        if_neg (by simpa using htr)]
      refine ⟨ihz, ?_, ?_⟩
      · intro p hp
        obtain ⟨hpk, ⟨n', hn'⟩, hr⟩ := ihmem p hp
        exact ⟨hpk, ⟨n', List.mem_cons_of_mem _ hn'⟩, hr⟩
      · intro name' dep' pkg' v hmem hpkg' hne' hresv
        rcases List.mem_cons.mp hmem with heq | hmem'
        · injection heq with hn hd
          rw [hd] at hpkg'
          exact absurd ((truthyOptStr_iff dep.package).mpr ⟨pkg', hpkg', hne'⟩) htr
        · exact ihback name' dep' pkg' v hmem' hpkg' hne' hresv

end Slim

namespace Slim

theorem getDependencies_resolved (env : GraphEnv) (a : AppId)
    (hinst : env.installedPackages = [])
    (hres : ∀ decls, (env.src a).manifestDeps = some decls →
      ∀ name dep, (name, dep) ∈ decls → truthyOptStr dep.package = true →
        ∃ pkg d, dep.package = some pkg ∧ resolvePackage env pkg = some d ∧
          (env.src d).hasManifest = true ∧ dep.range (env.src d).version = true) :
    (getDependencies env a).2 = 0 ∧
    (∀ p ∈ (getDependencies env a).1,
      StaticEdge env a p.2 ∧ p.1.range (env.src p.2).version = true) ∧
    (∀ v, StaticEdge env a v → DepEdge env a v) := by
  unfold getDependencies
  rcases hdecls : (env.src a).manifestDeps with _ | decls
  · refine ⟨rfl, ?_, ?_⟩
    · intro p hp
      exact absurd hp (List.not_mem_nil p)
    · rintro v ⟨decls, name, dep, pkg, hd, -⟩
      rw [hdecls] at hd
      exact Option.noConfusion hd
  · obtain ⟨hz, hmem, hback⟩ := getDependenciesLoop_resolved env hinst decls (hres decls hdecls)
    refine ⟨hz, ?_, ?_⟩
    · intro p hp
      obtain ⟨⟨pkg, hpkg, hne, hrv⟩, ⟨n', hn'⟩, hr⟩ := hmem p hp
      exact ⟨⟨decls, n', p.1, pkg, hdecls, hn', hpkg, hne, hrv⟩, hr⟩
    · rintro v ⟨decls', name, dep, pkg, hd, hmem', hpkg, hne, hrv⟩
      rw [hdecls] at hd
      injection hd with hd
      subst hd
      show v ∈ (getDependencies env a).1.map Prod.snd
      unfold getDependencies
      rw [hdecls]
      exact hback name dep pkg v hmem' hpkg hne hrv

theorem addSource_ne_none (env : GraphEnv) (allApps : List AppId)
    (hclosure : ∀ a ∈ allApps, ∀ d, DepEdge env a d → d ∈ allApps) :
    ∀ fuel queue graph dts errs,
      (∀ q ∈ queue, q ∈ allApps) →
      queue.length +
        ((allApps.toFinset \ (graph.map Prod.fst).toFinset).sum
          fun x => 1 + ((getDependencies env x).1).length) < fuel →
      addSource env fuel queue graph dts errs ≠ none := by
  intro fuel
  induction fuel with
  | zero =>
    intro queue graph dts errs _ hbound
    exact absurd hbound (Nat.not_lt_zero _)
  | succ fuel ih =>
    intro queue graph dts errs hq hbound
    rw [addSource]
    cases queue with
    | nil => simp
    | cons a rest =>
      simp only
      split
      · refine ih rest graph dts errs (fun q h => hq q (List.mem_cons_of_mem _ h)) ?_
        rw [List.length_cons] at hbound
        omega
      · rename_i hnin
        have haA : a ∈ allApps := hq a (List.mem_cons_self _ _)
        have hanotkey : a ∉ (graph.map Prod.fst).toFinset := by
          rw [List.mem_toFinset]
          intro hmem
          exact hnin ((alookup_isSome_iff_mem a graph).mpr hmem)
        have haS : a ∈ allApps.toFinset \ (graph.map Prod.fst).toFinset :=
          Finset.mem_sdiff.mpr ⟨List.mem_toFinset.mpr haA, hanotkey⟩
        have hkeys : ((graph ++ [(a, (getDependencies env a).1)]).map Prod.fst).toFinset =
            insert a (graph.map Prod.fst).toFinset := by
          rw [List.map_append]
          rw [List.toFinset_append]
          simp [Finset.union_comm, Finset.insert_eq]
        refine ih _ _ _ _ ?_ ?_
        · intro q hmem
          rcases List.mem_append.mp hmem with h | h
          · exact hq q (List.mem_cons_of_mem _ h)
          · exact hclosure a haA q h
        · rw [hkeys]
          have hsd : allApps.toFinset \ insert a (graph.map Prod.fst).toFinset =
              (allApps.toFinset \ (graph.map Prod.fst).toFinset).erase a := by
            ext x
            simp only [Finset.mem_sdiff, Finset.mem_erase, Finset.mem_insert]
            tauto
          rw [hsd]
          have hsum :
              ((allApps.toFinset \ (graph.map Prod.fst).toFinset).erase a).sum
                  (fun x => 1 + ((getDependencies env x).1).length) +
                (1 + ((getDependencies env a).1).length) =
              (allApps.toFinset \ (graph.map Prod.fst).toFinset).sum
                (fun x => 1 + ((getDependencies env x).1).length) :=
            Finset.sum_erase_add _ _ haS
          rw [List.length_append, List.length_map]
          rw [List.length_cons] at hbound
          omega

end Slim

namespace Slim

/-- C5: for an acyclic app universe in which every declared static dependency
resolves to a concrete source and every declared range matches the resolved
version, graph construction succeeds, reports zero errors, and its node set
is exactly the root plus the transitive closure of declared static
dependencies. -/
theorem claim_graph_construction (env : GraphEnv) (root : AppId) (allApps : List AppId)
    (hroot : root ∈ allApps)
    (hinst : env.installedPackages = [])
    (hman : ∀ a ∈ allApps, (env.src a).hasManifest = true)
    (hresolve : ∀ a ∈ allApps, ∀ decls, (env.src a).manifestDeps = some decls →
      ∀ name dep, (name, dep) ∈ decls → truthyOptStr dep.package = true →
        ∃ pkg d, dep.package = some pkg ∧ resolvePackage env pkg = some d ∧
          d ∈ allApps ∧ dep.range (env.src d).version = true)
    (hacyc : ∀ v, ¬ Relation.TransGen (StaticEdge env) v v) :
    (constructGraph env root (graphFuel env allApps)).isSome = true ∧
    ∀ graph dts errs,
      constructGraph env root (graphFuel env allApps) = some (graph, dts, errs) →
      errs = 0 ∧
      ∀ x, x ∈ graph.map Prod.fst ↔ Relation.ReflTransGen (StaticEdge env) root x := by
  have hresA : ∀ a ∈ allApps, ∀ decls, (env.src a).manifestDeps = some decls →
      ∀ name dep, (name, dep) ∈ decls → truthyOptStr dep.package = true →
        ∃ pkg d, dep.package = some pkg ∧ resolvePackage env pkg = some d ∧
          (env.src d).hasManifest = true ∧ dep.range (env.src d).version = true := by
    intro a ha decls hd name dep hm ht
    obtain ⟨pkg, d, h1, h2, h3, h4⟩ := hresolve a ha decls hd name dep hm ht
    exact ⟨pkg, d, h1, h2, hman d h3, h4⟩
  have hgd := fun a (ha : a ∈ allApps) => getDependencies_resolved env a hinst (hresA a ha)
  have hDS : ∀ a ∈ allApps, ∀ d, DepEdge env a d → StaticEdge env a d := by
    intro a ha d hd
    unfold DepEdge at hd
    rw [List.mem_map] at hd
    obtain ⟨p, hp, hpd⟩ := hd
    have hse := ((hgd a ha).2.1 p hp).1
    rwa [hpd] at hse
  have hSA : ∀ a ∈ allApps, ∀ d, StaticEdge env a d → d ∈ allApps := by
    rintro a ha d ⟨decls, name, dep, pkg, hd, hm, hpkg, hne, hres⟩
    obtain ⟨pkg', d', h1, h2, h3, h4⟩ := hresolve a ha decls hd name dep hm
      ((truthyOptStr_iff _).mpr ⟨pkg, hpkg, hne⟩)
    rw [hpkg] at h1
    injection h1 with h1
    subst h1
    rw [hres] at h2
    injection h2 with h2
    rw [← h2] at h3
    exact h3
  have hclosureP : ∀ a, a ∈ allApps → ∀ d, DepEdge env a d → d ∈ allApps :=
    fun a ha d hd => hSA a ha d (hDS a ha d hd)
  have hSD : ∀ a ∈ allApps, ∀ d, StaticEdge env a d → DepEdge env a d :=
    fun a ha d hs => (hgd a ha).2.2 d hs
  rcases hadd : addSource env (graphFuel env allApps) [root] [] [] 0 with _ | ⟨graph, dts, e1⟩
  · exfalso
    refine addSource_ne_none env allApps hclosureP (graphFuel env allApps)
      [root] [] [] 0 ?_ ?_ hadd
    · intro q hq
      rw [List.mem_singleton] at hq
      subst hq
      exact hroot
    · rw [List.map_nil, List.toFinset_nil, Finset.sdiff_empty, List.length_singleton]
      unfold graphFuel
      omega
  · obtain ⟨h1, h2, h3, h4, h5⟩ := addSource_spec env _ _ _ _ _ _ _ _ hadd
    have hrootIn : root ∈ graph.map Prod.fst := h2 root (List.mem_cons_self _ _)
    have hclosed : ∀ k v, alookup k graph = some v →
        ∀ d ∈ v.map Prod.snd, d ∈ graph.map Prod.fst := by
      refine h5 ?_
      intro k v h
      exact absurd h (by simp [alookup])
    have hentry : ∀ k v, alookup k graph = some v → v = (getDependencies env k).1 := by
      intro k v h
      rcases h3 k v h with h' | h'
      · exact absurd h' (by simp [alookup])
      · exact h'
    have hkeyReach : ∀ x ∈ graph.map Prod.fst,
        Relation.ReflTransGen (DepEdge env) root x := by
      intro x hx
      rcases h4 x hx with h | ⟨q, hq, hr⟩
      · exact absurd h (List.not_mem_nil x)
      · rw [List.mem_singleton] at hq
        subst hq
        exact hr
    have hReachKey : ∀ x, Relation.ReflTransGen (DepEdge env) root x →
        x ∈ graph.map Prod.fst := by
      intro x hr
      induction hr with
      | refl => exact hrootIn
      | tail hpath hedge ihx =>
        rename_i b c
        rcases hb : alookup b graph with _ | v
        · exfalso
          have hbs := (alookup_isSome_iff_mem b graph).mpr ihx
          rw [hb] at hbs
          simp at hbs
        · refine hclosed b v hb c ?_
          rw [hentry b v hb]
          exact hedge
    have hReachA : ∀ x, Relation.ReflTransGen (DepEdge env) root x → x ∈ allApps := by
      intro x hr
      induction hr with
      | refl => exact hroot
      | tail hpath hedge ihx => exact hclosureP _ ihx _ hedge
    have hReachAS : ∀ x, Relation.ReflTransGen (StaticEdge env) root x → x ∈ allApps := by
      intro x hr
      induction hr with
      | refl => exact hroot
      | tail hpath hedge ihx => exact hSA _ ihx _ hedge
    have hDepToStatic : ∀ x, Relation.ReflTransGen (DepEdge env) root x →
        Relation.ReflTransGen (StaticEdge env) root x := by
      intro x hr
      induction hr with
      | refl => exact Relation.ReflTransGen.refl
      | tail hpath hedge ihx =>
        exact ihx.tail (hDS _ (hReachA _ hpath) _ hedge)
    have hStaticToDep : ∀ x, Relation.ReflTransGen (StaticEdge env) root x →
        Relation.ReflTransGen (DepEdge env) root x := by
      intro x hr
      induction hr with
      | refl => exact Relation.ReflTransGen.refl
      | tail hpath hedge ihx =>
        exact ihx.tail (hSD _ (hReachAS _ hpath) _ hedge)
    have hkeysIff : ∀ x, x ∈ graph.map Prod.fst ↔
        Relation.ReflTransGen (StaticEdge env) root x :=
      fun x => ⟨fun h => hDepToStatic x (hkeyReach x h),
        fun h => hReachKey x (hStaticToDep x h)⟩
    have hqueue : ∀ q ∈ [root], q ∈ allApps := by
      intro q hq
      rw [List.mem_singleton] at hq
      subst hq
      exact hroot
    have he1 : e1 = 0 :=
      addSource_errs env (· ∈ allApps) hclosureP (fun a ha => (hgd a ha).1)
        _ _ _ _ _ _ _ _ hadd hqueue
    have hdts : DtsGood env dts :=
      addSource_dts env (· ∈ allApps) hclosureP
        (fun a ha p hp => ((hgd a ha).2.1 p hp).2)
        _ _ _ _ _ _ _ _ hadd hqueue
        (fun p hp => absurd hp (List.not_mem_nil p))
    have hwfG : ∀ v ∈ graph.map Prod.fst,
        ∀ w ∈ (fun a => ((alookup a graph).getD []).map Prod.snd) v,
          w ∈ graph.map Prod.fst := by
      intro v hv w hw
      have hw' : w ∈ ((alookup v graph).getD []).map Prod.snd := hw
      rcases hb : alookup v graph with _ | val
      · rw [hb] at hw'
        simp at hw'
      · rw [hb] at hw'
        exact hclosed v val hb w (by simpa using hw')
    have hacycG : ∀ v,
        ¬ Relation.TransGen (Edge (fun a => ((alookup a graph).getD []).map Prod.snd)) v v := by
      intro v htg
      refine hacyc v (Relation.TransGen.mono ?_ htg)
      intro u w huw
      have huw' : w ∈ ((alookup u graph).getD []).map Prod.snd := huw
      rcases hb : alookup u graph with _ | val
      · rw [hb] at huw'
        simp at huw'
      · rw [hb] at huw'
        have huKeys : u ∈ graph.map Prod.fst := by
          refine (alookup_isSome_iff_mem u graph).mp ?_
          rw [hb]
          rfl
        have hDep : DepEdge env u w := by
          unfold DepEdge
          rw [← hentry u val hb]
          simpa using huw'
        exact hDS u (hReachA u (hkeyReach u huKeys)) w hDep
    have hcyc := (isCyclic_correct (fun a => ((alookup a graph).getD []).map Prod.snd)
      (graph.map Prod.fst) hwfG).2 hacycG
    have hval : constructGraph env root (graphFuel env allApps) = some (graph, dts, 0) := by
      unfold constructGraph
      rw [hadd]
      simp only [hcyc]
      rw [he1, checkDependencies_eq_zero env dts hdts]
      simp
    refine ⟨by rw [hval]; rfl, ?_⟩
    intro graph' dts' errs' heq
    rw [hval] at heq
    injection heq with heq
    injection heq with hg heq
    injection heq with hd he
    subst hg
    subst he
    exact ⟨rfl, hkeysIff⟩

end Slim

namespace Slim

/-- Every static edge of the witness environment goes from `r` to `d`. -/
theorem witnessEnv_staticEdge (u w : AppId) (h : StaticEdge witnessEnv u w) :
    u = "r" ∧ w = "d" := by
  obtain ⟨decls, name, dep, pkg, hd, hm, hpkg, hne, hres⟩ := h
  by_cases hu : u = "r"
  · subst hu
    have hdecls : decls = [("dep", witnessDep)] := by
      rw [show (witnessEnv.src "r").manifestDeps = some [("dep", witnessDep)] from rfl] at hd
      injection hd with hd
      exact hd.symm
    subst hdecls
    rw [List.mem_singleton] at hm
    injection hm with hn hdep
    rw [hdep] at hpkg
    rw [show witnessDep.package = some "pkg.d" from rfl] at hpkg
    injection hpkg with hpkg
    rw [← hpkg] at hres
    rw [show resolvePackage witnessEnv "pkg.d" = some "d" from rfl] at hres
    injection hres with hres
    exact ⟨rfl, hres.symm⟩
  · have hnone : (witnessEnv.src u).manifestDeps = none := by
      simp [witnessEnv, hu]
    rw [hnone] at hd
    exact Option.noConfusion hd

/-- Witness for C5: construction over the witness environment succeeds. -/
theorem claim_graph_construction_witness :
    (constructGraph witnessEnv "r" (graphFuel witnessEnv ["r", "d"])).isSome = true :=
  (claim_graph_construction witnessEnv "r" ["r", "d"]
    (by decide)
    rfl
    (by
      intro a ha
      by_cases h : a = "r" <;> simp [witnessEnv, h])
    (by
      intro a ha decls hd name dep hm ht
      by_cases h : a = "r"
      · subst h
        have hdecls : decls = [("dep", witnessDep)] := by
          rw [show (witnessEnv.src "r").manifestDeps = some [("dep", witnessDep)] from
            rfl] at hd
          injection hd with hd
          exact hd.symm
        subst hdecls
        rw [List.mem_singleton] at hm
        injection hm with hn hdep
        refine ⟨"pkg.d", "d", ?_, rfl, by decide, ?_⟩
        · rw [hdep]
          rfl
        · rw [hdep]
          rfl
      · have hnone : (witnessEnv.src a).manifestDeps = none := by
          simp [witnessEnv, h]
        rw [hnone] at hd
        exact Option.noConfusion hd)
    (by
      intro v htg
      obtain ⟨b, hvb, hbv⟩ := Relation.TransGen.head'_iff.mp htg
      obtain ⟨hv, hb⟩ := witnessEnv_staticEdge v b hvb
      subst hv
      subst hb
      rcases Relation.ReflTransGen.cases_head hbv with h | ⟨c, hc, -⟩
      · exact absurd h (by decide)
      · obtain ⟨hd', -⟩ := witnessEnv_staticEdge "d" c hc
        exact absurd hd' (by decide))).1

end Slim

namespace Slim

/-! ### Empty-app detection lemmas -/

theorem licenseChain_shift (appRoot : String) :
    ∀ fuel filename acc,
      licenseChain appRoot fuel filename acc =
        (licenseChain appRoot fuel filename ∅).map (acc ∪ ·) := by
  intro fuel
  induction fuel with
  | zero =>
    intro filename acc
    rw [licenseChain, licenseChain]
    split
    · simp
    · rfl
  | succ fuel ih =>
    intro filename acc
    rw [licenseChain, licenseChain]
    split
    · simp
    · rw [ih (pdirname filename) (insert (normpath (pjoin appRoot filename)) acc),
        ih (pdirname filename) (insert (normpath (pjoin appRoot filename)) ∅)]
      rcases licenseChain appRoot fuel (pdirname filename) ∅ with _ | s
      · rfl
      · simp only [Option.map_some']
        congr 1
        ext x
        simp only [Finset.mem_union, Finset.mem_insert, Finset.not_mem_empty, false_or]
        tauto

theorem itemChain_shift (appRoot : String) (item : Option (Option String))
    (acc : Finset String) :
    itemChain appRoot item acc = (itemChain appRoot item ∅).map (acc ∪ ·) := by
  match item with
  | none => simp [itemChain]
  | some none => simp [itemChain]
  | some (some text) => exact licenseChain_shift appRoot _ _ _

theorem configs_cond_iff (configs : Finset String) :
    (configs.card = 0 ∨ (configs.card = 1 ∧ "app" ∈ configs)) ↔
      (configs = ∅ ∨ configs = {"app"}) := by
  constructor
  · rintro (h | ⟨hc, hm⟩)
    · exact Or.inl (Finset.card_eq_zero.mp h)
    · obtain ⟨a, ha⟩ := Finset.card_eq_one.mp hc
      rw [ha] at hm
      rw [Finset.mem_singleton] at hm
      subst hm
      exact Or.inr ha
  · rintro (rfl | rfl) <;> simp

/-- C7 counterexample: an app whose single retained asset is the file
`r/binx` (not under `bin/`) with no retained configuration is reported
empty by the code, although the asset is outside the set described by the
claim — the code tests `startswith(<app_root>/bin)` on the whole path
string. -/
theorem claim_detect_is_empty_counterexample :
    detectIsEmpty ⟨none, none, none⟩ "r" {"r/binx"} ∅ = some true ∧
    ¬ ClaimC7Allowed ⟨none, none, none⟩ "r" "r/binx" := by
  constructor
  · decide
  · intro hcl
    unfold ClaimC7Allowed at hcl
    rcases hcl with h | h | h | h | ⟨s, hs, hf⟩ | ⟨s, hs, hf⟩ | ⟨s, hs, hf⟩
    · exact absurd h (by decide)
    · exact absurd h (by decide)
    · exact absurd h (by decide)
    · exact absurd h (by decide)
    · rw [show itemChain "r" (⟨none, none, none⟩ : AppInfoDocs).license ∅ = some ∅
        from rfl] at hs
      injection hs with hs
      rw [← hs] at hf
      exact absurd hf (by decide)
    · rw [show itemChain "r" (⟨none, none, none⟩ : AppInfoDocs).privacyPolicy ∅ = some ∅
        from rfl] at hs
      injection hs with hs
      rw [← hs] at hf
      exact absurd hf (by decide)
    · rw [show itemChain "r" (⟨none, none, none⟩ : AppInfoDocs).releaseNotes ∅ = some ∅
        from rfl] at hs
      injection hs with hs
      rw [← hs] at hf
      exact absurd hf (by decide)

/-- C7 (amended): `_detect_is_empty` reports an app empty exactly when the
retained configuration is empty or only the `app` file and every retained
asset is the metadata directory, `metadata/default.meta`, a path beginning
with the plain string `<app_root>/bin`, or a member of a manifest-declared
documentation chain. -/
theorem claim_detect_is_empty_amended (info : AppInfoDocs) (appRoot : String)
    (assets configs : Finset String) (s1 s2 s3 : Finset String)
    (h1 : itemChain appRoot info.license ∅ = some s1)
    (h2 : itemChain appRoot info.privacyPolicy ∅ = some s2)
    (h3 : itemChain appRoot info.releaseNotes ∅ = some s3) :
    detectIsEmpty info appRoot assets configs = some true ↔
      (configs = ∅ ∨ configs = {"app"}) ∧
      ∀ f ∈ assets,
        f = pjoin appRoot "metadata" ∨
        f = pjoin (pjoin appRoot "metadata") "default.meta" ∨
        startswith f (pjoin appRoot "bin") = true ∨
        f ∈ s1 ∨ f ∈ s2 ∨ f ∈ s3 := by
  unfold detectIsEmpty
  by_cases hcond : configs.card = 0 ∨ (configs.card = 1 ∧ "app" ∈ configs)
  · rw [if_pos hcond]
    by_cases hassets : assets.card = 0
    · rw [if_pos hassets]
      have ha : assets = ∅ := Finset.card_eq_zero.mp hassets
      subst ha
      constructor
      · intro _
        exact ⟨(configs_cond_iff configs).mp hcond, by simp⟩
      · intro _
        rfl
    · rw [if_neg hassets]
      rw [itemChain_shift appRoot info.license, h1]
      simp only [Option.map_some', Option.some_bind]
      rw [itemChain_shift appRoot info.privacyPolicy, h2]
      simp only [Option.map_some', Option.some_bind]
      rw [itemChain_shift appRoot info.releaseNotes, h3]
      simp only [Option.map_some', Option.map_map, Function.comp]
      constructor
      · intro h
        injection h with h
        have hsub : assets ⊆
            ((({pjoin appRoot "metadata",
                pjoin (pjoin appRoot "metadata") "default.meta"} : Finset String) ∪
              assets.filter (fun f => startswith f (pjoin appRoot "bin")) ∪ s1) ∪ s2) ∪
              s3 := by
          by_contra hc
          rw [if_neg hc] at h
          exact Bool.noConfusion h
        refine ⟨(configs_cond_iff configs).mp hcond, ?_⟩
        intro f hf
        have hm := hsub hf
        simp only [Finset.mem_union, Finset.mem_insert, Finset.mem_singleton,
          Finset.mem_filter] at hm
        rcases hm with ((((h' | h') | ⟨-, h'⟩) | h') | h') | h'
        · exact Or.inl h'
        · exact Or.inr (Or.inl h')
        · exact Or.inr (Or.inr (Or.inl h'))
        · exact Or.inr (Or.inr (Or.inr (Or.inl h')))
        · exact Or.inr (Or.inr (Or.inr (Or.inr (Or.inl h'))))
        · exact Or.inr (Or.inr (Or.inr (Or.inr (Or.inr h'))))
      · rintro ⟨-, hall⟩
        have hsub : assets ⊆
            ((({pjoin appRoot "metadata",
                pjoin (pjoin appRoot "metadata") "default.meta"} : Finset String) ∪
              assets.filter (fun f => startswith f (pjoin appRoot "bin")) ∪ s1) ∪ s2) ∪
              s3 := by
          intro f hf
          simp only [Finset.mem_union, Finset.mem_insert, Finset.mem_singleton,
            Finset.mem_filter]
          rcases hall f hf with h' | h' | h' | h' | h' | h'
          · exact Or.inl (Or.inl (Or.inl (Or.inl (Or.inl h'))))
          · exact Or.inl (Or.inl (Or.inl (Or.inl (Or.inr h'))))
          · exact Or.inl (Or.inl (Or.inl (Or.inr ⟨hf, h'⟩)))
          · exact Or.inl (Or.inl (Or.inr h'))
          · exact Or.inl (Or.inr h')
          · exact Or.inr h'
        rw [if_pos hsub]
  · rw [if_neg hcond]
    constructor
    · intro h
      injection h with h
      exact Bool.noConfusion h
    · rintro ⟨hc, -⟩
      exact absurd ((configs_cond_iff configs).mpr hc) hcond

/-- Witness for the amended C7: an app retaining only `app.conf` and its
declared license file is reported empty. -/
theorem claim_detect_is_empty_amended_witness :
    detectIsEmpty ⟨some (some "LICENSE.txt"), none, none⟩ "r"
      {"r/LICENSE.txt"} {"app"} = some true :=
  (claim_detect_is_empty_amended ⟨some (some "LICENSE.txt"), none, none⟩ "r"
      {"r/LICENSE.txt"} {"app"} {"r/LICENSE.txt"} ∅ ∅
      (by decide) (by decide) (by decide)).mpr
    ⟨Or.inr rfl, by decide⟩

end Slim

namespace Slim

/-! ### Removal and description lemmas -/

theorem alookup_removeInstallation (apps : List (AppId × Installation)) (appId : AppId) :
    alookup appId (removeInstallation apps appId) = none := by
  induction apps with
  | nil => rfl
  | cons p rest ih =>
    obtain ⟨a, b⟩ := p
    unfold removeInstallation at ih ⊢
    rw [List.filter_cons]
    by_cases h : a = appId
    · rw [if_neg (by simp [h])]
      exact ih
    · rw [if_pos (by simp [h])]
      rw [alookup_cons, if_neg (fun he => h he.symm)]
      exact ih

/-- C8: an installation that still has a dependent makes `remove_app` log one
hard error carrying exactly the blocking dependents and leave the graph
unchanged (the app stays installed); with zero dependents the removal
proceeds and the app is gone. -/
theorem claim_remove_app_requires_no_dependents
    (apps : List (AppId × Installation)) (appId : AppId) (inst : Installation)
    (hfound : alookup appId apps = some inst) :
    (inst.dependents ≠ [] →
      removeApp apps appId = ([inst.dependents], apps) ∧
      alookup appId (removeApp apps appId).2 = some inst) ∧
    (inst.dependents = [] →
      removeApp apps appId = ([], removeInstallation apps appId) ∧
      alookup appId (removeApp apps appId).2 = none) := by
  constructor
  · intro hdeps
    have hlen : inst.dependents.length > 0 := List.length_pos.mpr hdeps
    have heq : removeApp apps appId = ([inst.dependents], apps) := by
      unfold removeApp
      rw [hfound]
      simp only [if_pos hlen]
    exact ⟨heq, by rw [heq]; exact hfound⟩
  · intro hdeps
    have heq : removeApp apps appId = ([], removeInstallation apps appId) := by
      unfold removeApp
      rw [hfound]
      simp [hdeps]
    exact ⟨heq, by rw [heq]; exact alookup_removeInstallation apps appId⟩

/-- Witness for C8: removing `pkg-a` while `pkg-c` still depends on it fails
with an error naming `pkg-c`, and `pkg-a` remains installed. -/
theorem claim_remove_app_requires_no_dependents_witness :
    removeApp [("pkg-a", ⟨["pkg-c"]⟩), ("pkg-c", ⟨[]⟩)] "pkg-a" =
      ([["pkg-c"]], [("pkg-a", ⟨["pkg-c"]⟩), ("pkg-c", ⟨[]⟩)]) ∧
    alookup "pkg-a"
      (removeApp [("pkg-a", ⟨["pkg-c"]⟩), ("pkg-c", ⟨[]⟩)] "pkg-a").2 =
      some ⟨["pkg-c"]⟩ :=
  (claim_remove_app_requires_no_dependents
      [("pkg-a", ⟨["pkg-c"]⟩), ("pkg-c", ⟨[]⟩)] "pkg-a" ⟨["pkg-c"]⟩
      (by decide)).1 (by decide)

theorem str_empty_append (s : String) : "" ++ s = s := rfl

theorem joinList_append (a b : List String) :
    joinList (a ++ b) = joinList a ++ joinList b := by
  induction a with
  | nil => simp [joinList]
  | cons s rest ih =>
    rw [List.cons_append, joinList, joinList, ih, String.append_assoc]

mutual

theorem describeApp_flatten : ∀ (t : DTree) (level : Nat), 1 ≤ level →
    describeApp t level =
      (if level = 1 then rootLine t else "") ++
        joinList ((flattenApp t level).map fun e => renderLine e.1 e.2.1 e.2.2.1 e.2.2.2)
  | DTree.node id ver acc deps, level, hlevel => by
    rw [describeApp, flattenApp, describeDeps_flatten deps level hlevel, rootLine]

theorem describeDeps_flatten : ∀ (cs : DTreeChildren) (level : Nat), 1 ≤ level →
    describeDeps cs level =
      joinList ((flattenDeps cs level).map fun e => renderLine e.1 e.2.1 e.2.2.1 e.2.2.2)
  | DTreeChildren.nil, level, _ => by
    rw [describeDeps, flattenDeps]
    rfl
  | DTreeChildren.cons (DTree.node cid cver cacc cdeps) rest, level, hlevel => by
    rw [describeDeps, flattenDeps,
      describeApp_flatten (DTree.node cid cver cacc cdeps) (level + 1)
        (Nat.le_succ_of_le hlevel),
      describeDeps_flatten rest level hlevel,
      if_neg (by omega)]
    rw [List.map_cons, List.map_append, joinList, joinList_append]
    simp only [renderLine, String.append_assoc, str_empty_append]

end

/-- C9 counterexample: on the chain `a` depends on `b` depends on `c`, the
code indents the depth-2 line with one `'|'` and six spaces, while the
claim's accumulating `'|   '` units predict `'|   |   '`. -/
theorem claim_description_counterexample :
    describeApp
        (DTree.node "a" "1.0.0" ""
          (DTreeChildren.cons
            (DTree.node "b" "1.0.0" "~1"
              (DTreeChildren.cons (DTree.node "c" "1.0.0" "~1" DTreeChildren.nil)
                DTreeChildren.nil))
            DTreeChildren.nil)) 1 =
      "|-- a@1.0.0\n|   |-- b@1.0.0 (accepting ~1)\n|      |-- c@1.0.0 (accepting ~1)\n" ∧
    claimDescribeApp
        (DTree.node "a" "1.0.0" ""
          (DTreeChildren.cons
            (DTree.node "b" "1.0.0" "~1"
              (DTreeChildren.cons (DTree.node "c" "1.0.0" "~1" DTreeChildren.nil)
                DTreeChildren.nil))
            DTreeChildren.nil)) 1 =
      "|-- a@1.0.0\n|   |-- b@1.0.0 (accepting ~1)\n|   |   |-- c@1.0.0 (accepting ~1)\n" ∧
    describeApp
        (DTree.node "a" "1.0.0" ""
          (DTreeChildren.cons
            (DTree.node "b" "1.0.0" "~1"
              (DTreeChildren.cons (DTree.node "c" "1.0.0" "~1" DTreeChildren.nil)
                DTreeChildren.nil))
            DTreeChildren.nil)) 1 ≠
      claimDescribeApp
        (DTree.node "a" "1.0.0" ""
          (DTreeChildren.cons
            (DTree.node "b" "1.0.0" "~1"
              (DTreeChildren.cons (DTree.node "c" "1.0.0" "~1" DTreeChildren.nil)
                DTreeChildren.nil))
            DTreeChildren.nil)) 1 := by
  refine ⟨rfl, rfl, ?_⟩
  decide

/-- C9 (amended): the description of a dependency tree is the root line
followed by one rendered line per edge, depth-first in declaration order,
each line at depth `n` prefixed by a single `'|'` and `3 n` spaces before
its `'|-- '` marker. -/
theorem claim_description_format (t : DTree) :
    describeApp t 1 =
      rootLine t ++
        joinList ((flattenApp t 1).map fun e => renderLine e.1 e.2.1 e.2.2.1 e.2.2.2) := by
  have h := describeApp_flatten t 1 le_rfl
  rwa [if_pos rfl] at h

end Slim

namespace Slim

/-- C10 counterexample: `JsonArray(JsonNumber())` applied to the bare scalar
`5` raises `TypeError` inside `validate`'s `enumerate` loop (the scalar
passes `is_instance` through the element-type disjunct but is not iterable),
so `convert_from` never returns the one-element list the claim predicts. -/
theorem claim_scalar_array_counterexample :
    arrayConvertFrom ⟨JDataType.number, false, JValue.null⟩ (JValue.num 5)
        JValue.null = none ∧
    ¬ arrayConvertFrom ⟨JDataType.number, false, JValue.null⟩ (JValue.num 5)
        JValue.null = some (JValue.arr [JValue.num 5]) := by
  constructor
  · rfl
  · intro h
    rw [show arrayConvertFrom ⟨JDataType.number, false, JValue.null⟩
        (JValue.num 5) JValue.null = none from rfl] at h
    exact Option.noConfusion h

/-- C10 (amended): the scalar-promotion branch of `JsonArray.convert_from`
is reachable only for iterable scalars; a bare string offered to an
array-of-strings field is validated character by character and then wrapped
into a one-element list, whereas bare numbers and booleans crash in
`validate`. -/
theorem claim_scalar_array_amended (s : String) (r : Bool) (df default : JValue) :
    arrayConvertFrom ⟨JDataType.string, r, df⟩ (JValue.str s) default =
      some (JValue.arr [JValue.str s]) := by
  have hall : (s.data.map fun c => JValue.str (String.mk [c])).all
      (jvValidate ⟨JDataType.string, r, df⟩) = true := by
    rw [List.all_eq_true]
    intro x hx
    obtain ⟨c, _, rfl⟩ := List.mem_map.mp hx
    rfl
  simp only [arrayConvertFrom, arrayValidate, arrayIsInstance, pyIterable,
    pyElems, jvConvertFrom, dtIsInstance, Bool.true_or, Option.map_some', hall]
  simp

end Slim
